import Mathlib

/-
Verification of the parquet layer-data store (`parquetLayerData.cpp` /
`parquetLayerData.h`).  The store exposes a parquet file (a "path" column of
absolute scene paths plus arbitrary value columns) as a read-only hierarchical
data store.  We shallowly embed the state of `ParquetLayerData` and its
operations (`Open`, `HasSpec`, `Has`, `Get`, `List`, `GetSpecType`, the
mutators, `_LoadBlock`, `_BuildPathHierarchy`) as executable Lean functions and
prove the specified properties about them.
-/

set_option linter.unusedVariables false

namespace PqModel

/-- Model of the external `SdfPath` value used throughout the source: an
absolute scene path given by its prim components, plus an optional property
name (`/World/Sphere1.temperature` has parts `["World", "Sphere1"]` and
property `some "temperature"`).  The absolute root `/` has no parts. -/
structure SdfPath where
  parts : List String
  prop : Option String
deriving DecidableEq, Repr

/-- `SdfPath::AbsoluteRootPath()`. -/
def SdfPath.root : SdfPath := ⟨[], none⟩

/-- `SdfPath::IsPropertyPath()`. -/
def SdfPath.IsPropertyPath (p : SdfPath) : Bool := p.prop.isSome

/-- `SdfPath::GetPrimPath()`. -/
def SdfPath.GetPrimPath (p : SdfPath) : SdfPath := ⟨p.parts, none⟩

/-- `SdfPath::GetNameToken()`: the property name on a property path, the last
prim component otherwise. -/
def SdfPath.GetNameToken (p : SdfPath) : String :=
  match p.prop with
  | some s => s
  | none => (p.parts.getLast?).getD ""

/-- `SdfPath::GetParentPath()`: a property path's parent is its prim path, a
prim path's parent drops the last component. -/
def SdfPath.GetParentPath (p : SdfPath) : SdfPath :=
  match p.prop with
  | some _ => ⟨p.parts, none⟩
  | none => ⟨p.parts.dropLast, none⟩

/-- Number of path elements; used as the termination measure for the upward
walks of `_BuildPathHierarchy`. -/
def SdfPath.depth (p : SdfPath) : Nat :=
  p.parts.length + (if p.prop.isSome then 1 else 0)

/-- Fuel-indexed ancestor walk (the fuel only makes the recursion
structural; `p.depth` steps always suffice). -/
def strictAncestorsF : Nat → SdfPath → List SdfPath
  | 0, _ => []
  | fuel + 1, p =>
    if p = SdfPath.root then []
    else p.GetParentPath :: strictAncestorsF fuel p.GetParentPath

/-- All strict ancestors of a path, nearest first, up to and including the
absolute root. -/
def SdfPath.strictAncestors (p : SdfPath) : List SdfPath :=
  strictAncestorsF p.depth p

/-- Lexicographic order on character lists, by code point. -/
def charListLt : List Char → List Char → Bool
  | [], [] => false
  | [], _ :: _ => true
  | _ :: _, [] => false
  | a :: as, b :: bs =>
    if a.val.toNat < b.val.toNat then true
    else if b.val.toNat < a.val.toNat then false
    else charListLt as bs

/-- The string order used by the external path comparator (lexicographic by
code point). -/
def strLt (a b : String) : Bool := charListLt a.data b.data

/-- Lexicographic comparison of component lists, via the string order. -/
def strListLt : List String → List String → Bool
  | [], [] => false
  | [], _ :: _ => true
  | _ :: _, [] => false
  | a :: as, b :: bs => if a = b then strListLt as bs else strLt a b

/-- Comparison of the optional property name (`none` sorts first). -/
def optStrLt : Option String → Option String → Bool
  | none, none => false
  | none, some _ => true
  | some _, none => false
  | some a, some b => strLt a b

/-- Model of `SdfPath::operator<` (lexicographic ordering by path element),
the comparator of the `std::map` members `_pathIndex` and `_childrenMap`. -/
def pathLt (p q : SdfPath) : Bool :=
  if p.parts = q.parts then optStrLt p.prop q.prop else strListLt p.parts q.parts

/-- First-match association-list lookup (`std::map::find` / `count`,
observationally). -/
def lookupAssoc {α β : Type} [DecidableEq α] : List (α × β) → α → Option β
  | [], _ => none
  | (a, b) :: rest, k => if k = a then some b else lookupAssoc rest k

/-- Sorted insert-or-update, modelling `std::map::operator[]` followed by an
assignment or in-place update: an existing key has its value updated in
place, a new key is inserted at its sorted position. -/
def insUpd {α β : Type} [DecidableEq α] (lt : α → α → Bool) (k : α)
    (upd : Option β → β) : List (α × β) → List (α × β)
  | [] => [(k, upd none)]
  | (a, b) :: rest =>
    if k = a then (a, upd (some b)) :: rest
    else if lt k a then (k, upd none) :: (a, b) :: rest
    else (a, b) :: insUpd lt k upd rest

/-- Sorted set insert, modelling `std::set::insert`. -/
def insSet {α : Type} [DecidableEq α] (lt : α → α → Bool) (k : α) :
    List α → List α
  | [] => [k]
  | a :: rest =>
    if k = a then a :: rest
    else if lt k a then k :: a :: rest
    else a :: insSet lt k rest

/-- Physical column types of the underlying reader; `tOther` stands for any
physical type the store does not support (`INT96`, `FIXED_LEN_BYTE_ARRAY`). -/
inductive PhysType
  | tFloat
  | tDouble
  | tInt32
  | tInt64
  | tBoolean
  | tByteArray
  | tOther
deriving DecidableEq, Repr

/-- A raw decoded cell handed back by the external reader's `ReadBatch`.
Floating-point payloads are carried as uninterpreted bit patterns (the source only
copies them, it never computes with them). -/
inductive RawVal
  | rF32 (bits : Nat)
  | rF64 (bits : Nat)
  | rI32 (v : Int)
  | rI64 (v : Int)
  | rB (b : Bool)
  | rBytes (s : String)
deriving DecidableEq, Repr

/-- One row group's worth of one column: either the decoded values, or a
decode fault (the reader throws while reading it). -/
inductive ColBlock
  | ok (vals : List RawVal)
  | fault
deriving DecidableEq, Repr

/-- One column of the parquet file: schema name, physical type, and the data
of each row group. -/
structure PqColumn where
  name : String
  ctype : PhysType
  blocks : List ColBlock
deriving DecidableEq, Repr

/-- The parquet file as seen through the external reader's interface. -/
structure PqFile where
  columns : List PqColumn
deriving DecidableEq, Repr

/-- Placeholder column returned for an out-of-range column index. -/
def noColumn : PqColumn := ⟨"", PhysType.tOther, []⟩

/-- `ParquetLocation` from `parquetLayerData.h`: row group and row offset of
an indexed path.  The C++ fields are `int`/`int64_t` but hold loop counters,
hence `Nat`. -/
structure ParquetLocation where
  rowGroup : Nat
  rowOffset : Nat
deriving DecidableEq, Repr

/-- Model of `VtValue` restricted to the variants the source constructs. -/
inductive VtValue
  | empty
  | floatArr (xs : List Nat)
  | doubleArr (xs : List Nat)
  | intArr (xs : List Int)
  | int64Arr (xs : List Int)
  | boolArr (xs : List Bool)
  | stringArr (xs : List String)
  | floatVal (x : Nat)
  | doubleVal (x : Nat)
  | intVal (x : Int)
  | int64Val (x : Int)
  | boolVal (b : Bool)
  | stringVal (s : String)
  | tokenVal (t : String)
  | tokenArr (ts : List String)
  | typeNameVal (t : String)
  | specifierOver
  | variabilityVarying
deriving DecidableEq, Repr

/-- The mutable `_blockCache` member: `(field name, row group) -> block`. -/
def BlockCache : Type := List ((String × Nat) × VtValue)

def cacheLookup (c : BlockCache) (field : String) (rg : Nat) : Option VtValue :=
  lookupAssoc c (field, rg)

def cacheInsert (c : BlockCache) (field : String) (rg : Nat) (v : VtValue) :
    BlockCache :=
  ((field, rg), v) :: c

/-- The immutable-after-open state of `ParquetLayerData`: `_pathIndex`
(`std::map`, so kept sorted by `pathLt`), `_allPaths` (`std::set`),
`_childrenMap` (`std::map`, child-name vectors in insertion order) and
`_propertyNames`. -/
structure LayerState where
  pathIndex : List (SdfPath × ParquetLocation)
  allPaths : List SdfPath
  childrenMap : List (SdfPath × List String)
  propertyNames : List String
deriving DecidableEq, Repr

def SdfFieldKeys.Default : String := "default"
def SdfFieldKeys.TypeName : String := "typeName"
def SdfFieldKeys.Variability : String := "variability"
def SdfFieldKeys.Custom : String := "custom"
def SdfFieldKeys.Specifier : String := "specifier"
def SdfChildrenKeys.PrimChildren : String := "primChildren"
def SdfChildrenKeys.PropertyChildren : String := "properties"

def isIdentChar (c : Char) : Bool := c.isAlpha || c.isDigit || c = '_'

/-- A legal path-component identifier: nonempty, identifier characters only,
not starting with a digit. -/
def isIdent (s : String) : Bool :=
  match s.data with
  | [] => false
  | c :: rest => !c.isDigit && (c :: rest).all isIdentChar

/-- Split a character list on `/` into components. -/
def splitSlash : List Char → List Char → List String
  | [], acc => [String.mk acc.reverse]
  | c :: rest, acc =>
    if c = '/' then String.mk acc.reverse :: splitSlash rest []
    else splitSlash rest (c :: acc)

/-- Modelled from the spec: the external path library's parsing of a path
column string, as used by `Open` (`SdfPath path(pathStr); if
(path.IsAbsolutePath())`).  Per the spec the path column holds "absolute
hierarchical path strings" identifying data nodes; a well-formed absolute
Node Path is the root `/` or `/` followed by slash-separated identifiers,
and anything else (empty, relative, malformed) is rejected. -/
def parseAbsPath (s : String) : Option SdfPath :=
  match s.data with
  | [] => none
  | c :: rest =>
    if c = '/' then
      if rest = [] then some SdfPath.root
      else if (splitSlash rest []).all isIdent then
        some ⟨splitSlash rest [], none⟩
      else none
    else none

/-- The string contents of a raw path-column cell (`ByteArray` payload). -/
def rawString : RawVal → String
  | .rBytes s => s
  | _ => ""

def rawF32 : RawVal → Nat
  | .rF32 b => b
  | _ => 0

def rawF64 : RawVal → Nat
  | .rF64 b => b
  | _ => 0

def rawI32 : RawVal → Int
  | .rI32 v => v
  | _ => 0

def rawI64 : RawVal → Int
  | .rI64 v => v
  | _ => 0

def rawB : RawVal → Bool
  | .rB b => b
  | _ => false

/-- Step 1 of `Open`: scan the schema for the `path` column index (the last
column so named, since the loop keeps assigning) and collect every other
column name, in order, as `_propertyNames`. -/
def scanColumns (cols : List PqColumn) : Option Nat × List String :=
  cols.enum.foldl
    (fun acc ic =>
      if ic.2.name = "path" then (some ic.1, acc.2)
      else (acc.1, acc.2 ++ [ic.2.name]))
    (none, [])

/-- Errors of `Open` (it prints and returns `false`; we name the two cases). -/
inductive OpenError
  | missingPathColumn
  | corrupt
deriving DecidableEq, Repr

/-- Step 2 of `Open`, inner loop: index every row of one row group of the
path column, skipping rows that do not parse as absolute paths and
overwriting the location of a repeated path (`_pathIndex[path] = {rg, i}`). -/
def indexBlock (rg : Nat) (vals : List RawVal)
    (idx : List (SdfPath × ParquetLocation)) : List (SdfPath × ParquetLocation) :=
  vals.enum.foldl
    (fun idx2 iv =>
      match parseAbsPath (rawString iv.2) with
      | some p => insUpd pathLt p (fun _ => ⟨rg, iv.1⟩) idx2
      | none => idx2)
    idx

/-- Step 2 of `Open`, outer loop: index all row groups of the path column; a
decode exception while reading a row group aborts the open (`Corrupt`). -/
def buildIndex : List (Nat × ColBlock) → List (SdfPath × ParquetLocation) →
    Except OpenError (List (SdfPath × ParquetLocation))
  | [], idx => .ok idx
  | (_, .fault) :: _, _ => .error .corrupt
  | (rg, .ok vals) :: rest, idx => buildIndex rest (indexBlock rg vals idx)

/-- One step of the `while` loop of `_BuildPathHierarchy`: register the
current path as a child of its parent, add the parent (unless it is the
root) to `_allPaths`, and continue from the parent. -/
def addChild (cm : List (SdfPath × List String)) (parent : SdfPath)
    (childName : String) : List (SdfPath × List String) :=
  insUpd pathLt parent
    (fun old =>
      match old with
      | none => [childName]
      | some l => if childName ∈ l then l else l ++ [childName])
    cm

/-- Fuel-indexed version of the hierarchy walk (the fuel only makes the
recursion structural; `path.depth` steps always suffice). -/
def walkUpF : Nat → SdfPath → List SdfPath → List (SdfPath × List String) →
    List SdfPath × List (SdfPath × List String)
  | 0, _, ap, cm => (ap, cm)
  | fuel + 1, path, ap, cm =>
    if path = SdfPath.root then (ap, cm)
    else
      walkUpF fuel path.GetParentPath
        (if path.GetParentPath = SdfPath.root then ap
         else insSet pathLt path.GetParentPath ap)
        (addChild cm path.GetParentPath path.GetNameToken)

/-- The `while (current != AbsoluteRootPath())` walk of
`_BuildPathHierarchy`. -/
def walkUp (path : SdfPath) (ap : List SdfPath)
    (cm : List (SdfPath × List String)) :
    List SdfPath × List (SdfPath × List String) :=
  walkUpF path.depth path ap cm

/-- One iteration of the `_BuildPathHierarchy` loop for one path: insert it
into `_allPaths`, then walk up to the root. -/
def synthStep (st : List SdfPath × List (SdfPath × List String))
    (p : SdfPath) : List SdfPath × List (SdfPath × List String) :=
  walkUp p (insSet pathLt p st.1) st.2

/-- `_BuildPathHierarchy`: clear `_allPaths` and `_childrenMap`, then for
every indexed path insert it into `_allPaths` and walk up to the root. -/
def buildPathHierarchy (idx : List (SdfPath × ParquetLocation)) :
    List SdfPath × List (SdfPath × List String) :=
  idx.foldl (fun st pr => synthStep st pr.1) ([], [])

/-- `ParquetLayerData::Open`, over an already-opened reader (file-system
errors of `OpenFile` itself are outside the model): locate the path column,
eagerly index it, synthesize the hierarchy. -/
def openParquet (f : PqFile) : Except OpenError LayerState :=
  match scanColumns f.columns with
  | (none, _) => .error .missingPathColumn
  | (some pci, props) =>
    match buildIndex (f.columns.getD pci noColumn).blocks.enum [] with
    | .error e => .error e
    | .ok idx =>
      .ok ⟨idx, (buildPathHierarchy idx).1, (buildPathHierarchy idx).2, props⟩

/-- The state produced by a successful open (junk on failure; used to state
concrete witnesses). -/
def openState (f : PqFile) : LayerState :=
  match openParquet f with
  | .ok st => st
  | .error _ => ⟨[], [], [], []⟩

/-- `ParquetLayerData::HasSpec`. -/
def HasSpec (st : LayerState) (path : SdfPath) : Bool :=
  if path = SdfPath.root then true
  else if path.IsPropertyPath then
    match lookupAssoc st.pathIndex path.GetPrimPath with
    | some _ => decide (path.GetNameToken ∈ st.propertyNames)
    | none => false
  else decide (path ∈ st.allPaths)

/-- The spec types the source returns. -/
inductive SdfSpecType
  | pseudoRoot
  | prim
  | attribute
  | unknown
deriving DecidableEq, Repr

/-- `ParquetLayerData::GetSpecType`. -/
def GetSpecType (st : LayerState) (path : SdfPath) : SdfSpecType :=
  if path = SdfPath.root then .pseudoRoot
  else if path.IsPropertyPath then
    match lookupAssoc st.pathIndex path.GetPrimPath with
    | some _ =>
      if path.GetNameToken ∈ st.propertyNames then .attribute else .unknown
    | none => .unknown
  else if path ∈ st.allPaths then .prim else .unknown

/-- Column index resolution in `_LoadBlock` (first schema column with the
field's name; the loop breaks at the first match). -/
def findColIdx (cols : List PqColumn) (field : String) : Option Nat :=
  cols.findIdx? (fun c => c.name = field)

/-- The decode dispatch of `_LoadBlock`: one `VtArray` variant per supported
physical type; unsupported physical types produce nothing. -/
def decodeBlock (t : PhysType) (vals : List RawVal) : Option VtValue :=
  match t with
  | .tFloat => some (.floatArr (vals.map rawF32))
  | .tDouble => some (.doubleArr (vals.map rawF64))
  | .tInt32 => some (.intArr (vals.map rawI32))
  | .tInt64 => some (.int64Arr (vals.map rawI64))
  | .tBoolean => some (.boolArr (vals.map rawB))
  | .tByteArray => some (.stringArr (vals.map rawString))
  | .tOther => none

/-- `ParquetLayerData::_LoadBlock`, instrumented with the number of
`ReadBatch` calls it issues (0 on a cache hit, on a missing column, or on an
unsupported physical type; 1 otherwise). -/
def loadBlockCnt (f : PqFile) (cache : BlockCache) (field : String)
    (rg : Nat) : BlockCache × Nat :=
  if (cacheLookup cache field rg).isSome then (cache, 0)
  else
    match findColIdx f.columns field with
    | none => (cache, 0)
    | some ci =>
      let col := f.columns.getD ci noColumn
      match col.ctype with
      | .tOther => (cache, 0)
      | t =>
        match col.blocks.getD rg .fault with
        | .fault => (cache, 1)
        | .ok vals =>
          match decodeBlock t vals with
          | some v => (cacheInsert cache field rg v, 1)
          | none => (cache, 1)

/-- `ParquetLayerData::_LoadBlock` (cache effect only). -/
def loadBlock (f : PqFile) (cache : BlockCache) (field : String) (rg : Nat) :
    BlockCache :=
  (loadBlockCnt f cache field rg).1

/-- The common access pattern of `Get`/`Has` on a field path:
`_LoadBlock(propName, rowGroup); const VtValue& block =
_blockCache[propName][rowGroup];`.  The `map::operator[]` chain
default-inserts an empty `VtValue` when `_LoadBlock` cached nothing; the
first component is the block reference so obtained (`none` when the lookup
default-inserted). -/
def loadedBlock (f : PqFile) (cache : BlockCache) (propName : String)
    (rg : Nat) : Option VtValue × BlockCache :=
  let c1 := loadBlock f cache propName rg
  match cacheLookup c1 propName rg with
  | some b => (some b, c1)
  | none => (none, cacheInsert c1 propName rg .empty)

/-- Indexing a cached block at a row offset, as done by the `IsHolding`
if-chain of `Get` on the `Default` field. -/
def extractAt (block : VtValue) (off : Nat) : VtValue :=
  match block with
  | .floatArr xs => .floatVal (xs.getD off 0)
  | .doubleArr xs => .doubleVal (xs.getD off 0)
  | .intArr xs => .intVal (xs.getD off 0)
  | .int64Arr xs => .int64Val (xs.getD off 0)
  | .boolArr xs => .boolVal (xs.getD off false)
  | .stringArr xs => .stringVal (xs.getD off "")
  | _ => .empty

/-- The type-name token reported for a cached block by the `IsHolding`
if-chain of `Get` on the `TypeName` field. -/
def blockTypeToken : VtValue → Option String
  | .floatArr _ => some "float"
  | .doubleArr _ => some "double"
  | .intArr _ => some "int"
  | .int64Arr _ => some "int64"
  | .boolArr _ => some "bool"
  | .stringArr _ => some "string"
  | _ => none

/-- The attribute-field dispatch of `Get` on a found property (`Default` /
`TypeName` / `Variability` / `Custom`; anything else falls through to
`return VtValue()`). -/
def getPropField (f : PqFile) (cache : BlockCache) (propName : String)
    (loc : ParquetLocation) (field : String) : VtValue × BlockCache :=
  if field = SdfFieldKeys.Default then
    match loadedBlock f cache propName loc.rowGroup with
    | (some block, c1) => (extractAt block loc.rowOffset, c1)
    | (none, c1) => (.empty, c1)
  else if field = SdfFieldKeys.TypeName then
    match loadedBlock f cache propName loc.rowGroup with
    | (some block, c1) =>
      match blockTypeToken block with
      | some t => (.tokenVal t, c1)
      | none => (.empty, c1)
    | (none, c1) => (.empty, c1)
  else if field = SdfFieldKeys.Variability then (.variabilityVarying, cache)
  else if field = SdfFieldKeys.Custom then (.boolVal false, cache)
  else (.empty, cache)

/-- `ParquetLayerData::Get`.  The second component is the block cache after
the call (the C++ cache is a mutable member mutated behind `const`). -/
def Get (f : PqFile) (st : LayerState) (cache : BlockCache) (path : SdfPath)
    (field : String) : VtValue × BlockCache :=
  if field = SdfChildrenKeys.PrimChildren then
    match lookupAssoc st.childrenMap path with
    | some cs => (.tokenArr cs, cache)
    | none => (.tokenArr [], cache)
  else if field = SdfChildrenKeys.PropertyChildren ∧
      (lookupAssoc st.pathIndex path).isSome then
    (.tokenArr st.propertyNames, cache)
  else if field = SdfFieldKeys.Specifier ∧ path ∈ st.allPaths then
    (.specifierOver, cache)
  else if path.IsPropertyPath then
    match lookupAssoc st.pathIndex path.GetPrimPath with
    | none => (.empty, cache)
    | some loc =>
      if path.GetNameToken ∈ st.propertyNames then
        getPropField f cache path.GetNameToken loc field
      else (.empty, cache)
  else (.empty, cache)

/-- `ParquetLayerData::Has` (the `VtValue*` overload).  The result is
`((returned bool, value written through the out-pointer), cache after)`;
`none` means the out-pointer was left untouched. -/
def Has (f : PqFile) (st : LayerState) (cache : BlockCache) (path : SdfPath)
    (field : String) : (Bool × Option VtValue) × BlockCache :=
  if path.IsPropertyPath then
    match lookupAssoc st.pathIndex path.GetPrimPath with
    | none => ((false, none), cache)
    | some loc =>
      if path.GetNameToken ∈ st.propertyNames then
        if field = SdfFieldKeys.Default then
          let r := Get f st cache path field
          if r.1 = .empty then ((false, none), r.2)
          else ((true, some r.1), r.2)
        else if field = SdfFieldKeys.TypeName then
          match loadedBlock f cache path.GetNameToken loc.rowGroup with
          | (some block, c1) =>
            match blockTypeToken block with
            | some t => ((true, some (.typeNameVal t)), c1)
            | none => ((true, none), c1)
          | (none, c1) => ((true, none), c1)
        else if field = SdfFieldKeys.Variability then
          ((true, some .variabilityVarying), cache)
        else if field = SdfFieldKeys.Custom then
          ((true, some (.boolVal false)), cache)
        else ((false, none), cache)
      else ((false, none), cache)
  else if field = SdfChildrenKeys.PrimChildren ∧
      ((lookupAssoc st.childrenMap path).isSome ∨ path = SdfPath.root) then
    let r := Get f st cache path field
    ((true, some r.1), r.2)
  else if field = SdfChildrenKeys.PropertyChildren ∧
      (lookupAssoc st.pathIndex path).isSome then
    ((true, some (.tokenArr st.propertyNames)), cache)
  else if field = SdfFieldKeys.Specifier ∧ path ∈ st.allPaths then
    ((true, some .specifierOver), cache)
  else ((false, none), cache)

/-- `ParquetLayerData::List` (named `ListFields` here; `List` is the Lean
list type). -/
def ListFields (st : LayerState) (path : SdfPath) : List String :=
  if path.IsPropertyPath then
    [SdfFieldKeys.Default, SdfFieldKeys.TypeName, SdfFieldKeys.Variability,
     SdfFieldKeys.Custom]
  else
    (if (lookupAssoc st.childrenMap path).isSome ∨ path = SdfPath.root then
      [SdfChildrenKeys.PrimChildren]
     else []) ++
    (if path ∈ st.allPaths then [SdfFieldKeys.Specifier] else []) ++
    (if (lookupAssoc st.pathIndex path).isSome ∧ st.propertyNames ≠ [] then
      [SdfChildrenKeys.PropertyChildren]
     else [])

/-- `ParquetLayerData::CreateSpec` (empty body: read-only). -/
def CreateSpec (st : LayerState) (path : SdfPath) (specType : SdfSpecType) :
    LayerState := st

/-- `ParquetLayerData::Set` (empty body; named `SetField` here). -/
def SetField (st : LayerState) (path : SdfPath) (field : String)
    (value : VtValue) : LayerState := st

/-- `ParquetLayerData::Erase` (empty body). -/
def Erase (st : LayerState) (path : SdfPath) (field : String) : LayerState := st

/-- `ParquetLayerData::EraseSpec` (empty body). -/
def EraseSpec (st : LayerState) (path : SdfPath) : LayerState := st

/-- `ParquetLayerData::MoveSpec` (empty body). -/
def MoveSpec (st : LayerState) (oldPath newPath : SdfPath) : LayerState := st

/-- `ParquetLayerData::SetTimeSample` (empty body; the C++ `time` is a
`double`, ignored by the body, carried here as an uninterpreted `Int`). -/
def SetTimeSample (st : LayerState) (path : SdfPath) (time : Int)
    (value : VtValue) : LayerState := st

/-- `ParquetLayerData::EraseTimeSample` (empty body). -/
def EraseTimeSample (st : LayerState) (path : SdfPath) (time : Int) :
    LayerState := st

/-- A mutation call on the store. -/
inductive MutOp
  | createSpec (path : SdfPath) (specType : SdfSpecType)
  | setField (path : SdfPath) (field : String) (value : VtValue)
  | erase (path : SdfPath) (field : String)
  | eraseSpec (path : SdfPath)
  | moveSpec (oldPath newPath : SdfPath)
  | setTimeSample (path : SdfPath) (time : Int) (value : VtValue)
  | eraseTimeSample (path : SdfPath) (time : Int)
deriving DecidableEq, Repr

/-- Dispatch of a mutation call to the corresponding method. -/
def applyMut (st : LayerState) : MutOp → LayerState
  | .createSpec p t => CreateSpec st p t
  | .setField p fld v => SetField st p fld v
  | .erase p fld => Erase st p fld
  | .eraseSpec p => EraseSpec st p
  | .moveSpec p q => MoveSpec st p q
  | .setTimeSample p t v => SetTimeSample st p t v
  | .eraseTimeSample p t => EraseTimeSample st p t

/-- The rows of an enumerated block list, flattened in scan order:
(row group, row offset, raw string) triples. -/
def rowsOfBlocks (bs : List (Nat × ColBlock)) : List (Nat × Nat × String) :=
  (bs.map
    (fun rb =>
      match rb.2 with
      | ColBlock.ok vals =>
        vals.enum.map (fun iv => (rb.1, iv.1, rawString iv.2))
      | ColBlock.fault => [])).flatten

/-- The path-column rows of a column, flattened in scan order. -/
def colRows (col : PqColumn) : List (Nat × Nat × String) :=
  rowsOfBlocks col.blocks.enum

/-- The path column resolved by `Open` (junk when the schema has none). -/
def pathColOf (f : PqFile) : PqColumn :=
  match scanColumns f.columns with
  | (none, _) => noColumn
  | (some pci, _) => f.columns.getD pci noColumn

/-- Specification-side reading of the index contract: the storage location
recorded for `p` is that of the last row in scan order whose path string
parses to `p`. -/
def lastLocOf (f : PqFile) (p : SdfPath) : Option ParquetLocation :=
  (colRows (pathColOf f)).foldl
    (fun acc r =>
      if parseAbsPath r.2.2 = some p then some ⟨r.1, r.2.1⟩ else acc)
    none

/-- The well-formed absolute paths of the path column, in scan order
(block-major, row order within a block). -/
def scannedPaths (f : PqFile) : List SdfPath :=
  (colRows (pathColOf f)).filterMap (fun r => parseAbsPath r.2.2)

/-- Hierarchy synthesis run over an arbitrary sequence of paths (the formal
rendering of "first-discovery order over this sequence"). -/
def synthFromScan (ps : List SdfPath) :
    List SdfPath × List (SdfPath × List String) :=
  ps.foldl synthStep ([], [])

/-- Whether a physical type has a supported decode variant. -/
def supportedType : PhysType → Bool
  | .tOther => false
  | _ => true

/-- The scalar `VtValue` wrapping of one raw cell of a column of physical
type `t`. -/
def scalarVal (t : PhysType) (v : RawVal) : VtValue :=
  match t with
  | .tFloat => .floatVal (rawF32 v)
  | .tDouble => .doubleVal (rawF64 v)
  | .tInt32 => .intVal (rawI32 v)
  | .tInt64 => .int64Val (rawI64 v)
  | .tBoolean => .boolVal (rawB v)
  | .tByteArray => .stringVal (rawString v)
  | .tOther => .empty

/-- The type-name token reported for a column of physical type `t`. -/
def typeToken : PhysType → String
  | .tFloat => "float"
  | .tDouble => "double"
  | .tInt32 => "int"
  | .tInt64 => "int64"
  | .tBoolean => "bool"
  | .tByteArray => "string"
  | .tOther => ""

/-- Example file: one data row `/World/Sphere1` with a `temp` float column. -/
def exFile : PqFile :=
  ⟨[⟨"path", .tByteArray, [.ok [.rBytes "/World/Sphere1"]]⟩,
    ⟨"temp", .tFloat, [.ok [.rF32 77]]⟩]⟩

/-- File whose path column is scanned in the order `/B`, `/A` (not
lexicographic), used to separate scan order from index order. -/
def scanOrderFile : PqFile :=
  ⟨[⟨"path", .tByteArray, [.ok [.rBytes "/B", .rBytes "/A"]]⟩]⟩

/-- File with a `temp` column of unsupported physical type. -/
def unsuppFile : PqFile :=
  ⟨[⟨"path", .tByteArray, [.ok [.rBytes "/A"]]⟩,
    ⟨"temp", .tOther, [.ok [.rB false]]⟩]⟩

/-! Basic lemmas about the container helpers. -/

theorem insUpd_cons_self {α β : Type} [DecidableEq α] (lt : α → α → Bool)
    (upd : Option β → β) (a : α) (b : β) (rest : List (α × β)) :
    insUpd lt a upd ((a, b) :: rest) = (a, upd (some b)) :: rest := by
  simp [insUpd]

theorem insSet_cons_self {α : Type} [DecidableEq α] (lt : α → α → Bool)
    (a : α) (rest : List α) :
    insSet lt a (a :: rest) = a :: rest := by
  simp [insSet]

theorem lookupAssoc_insUpd_const {α β : Type} [DecidableEq α]
    (lt : α → α → Bool) (k k' : α) (v : β) (l : List (α × β)) :
    lookupAssoc (insUpd lt k (fun _ => v) l) k' =
      if k' = k then some v else lookupAssoc l k' := by
  induction l with
  | nil => simp [insUpd, lookupAssoc]
  | cons hd tl ih =>
    rcases hd with ⟨a, b⟩
    by_cases hka : k = a
    · subst hka
      rw [insUpd_cons_self]
      simp only [lookupAssoc]
      by_cases hk' : k' = k <;> simp [hk', lookupAssoc]
    · simp only [insUpd, if_neg hka]
      by_cases hlt : lt k a = true
      · simp only [if_pos hlt, lookupAssoc]
      · simp only [if_neg hlt, lookupAssoc]
        by_cases hk'a : k' = a
        · subst hk'a
          have hne : ¬k' = k := fun h => hka h.symm
          simp [hne]
        · simp only [if_neg hk'a, ih]

theorem mem_insUpd {α β : Type} [DecidableEq α] (lt : α → α → Bool) (k : α)
    (upd : Option β → β) (l : List (α × β)) (x : α × β)
    (hx : x ∈ insUpd lt k upd l) : x.1 = k ∨ x ∈ l := by
  induction l with
  | nil =>
    simp only [insUpd, List.mem_singleton] at hx
    subst hx
    exact Or.inl rfl
  | cons hd tl ih =>
    rcases hd with ⟨a, b⟩
    by_cases hka : k = a
    · subst hka
      rw [insUpd_cons_self] at hx
      rcases List.mem_cons.mp hx with h | h
      · subst h
        exact Or.inl rfl
      · exact Or.inr (List.mem_cons_of_mem _ h)
    · simp only [insUpd, if_neg hka] at hx
      by_cases hlt : lt k a = true
      · simp only [if_pos hlt] at hx
        rcases List.mem_cons.mp hx with h | h
        · subst h
          exact Or.inl rfl
        · exact Or.inr h
      · simp only [if_neg hlt] at hx
        rcases List.mem_cons.mp hx with h | h
        · subst h
          exact Or.inr (List.mem_cons_self _ _)
        · rcases ih h with h2 | h2
          · exact Or.inl h2
          · exact Or.inr (List.mem_cons_of_mem _ h2)

theorem mem_insSet_iff {α : Type} [DecidableEq α] (lt : α → α → Bool)
    (k : α) (l : List α) (x : α) :
    x ∈ insSet lt k l ↔ x = k ∨ x ∈ l := by
  induction l with
  | nil => simp [insSet]
  | cons a rest ih =>
    by_cases hka : k = a
    · subst hka
      rw [insSet_cons_self]
      simp only [List.mem_cons]
      constructor
      · rintro (h | h)
        · exact Or.inl h
        · exact Or.inr (Or.inr h)
      · rintro (h | h | h)
        · exact Or.inl h
        · exact Or.inl h
        · exact Or.inr h
    · simp only [insSet, if_neg hka]
      by_cases hlt : lt k a = true
      · simp only [if_pos hlt, List.mem_cons]
      · simp only [if_neg hlt, List.mem_cons, ih]
        constructor
        · rintro (h | h | h)
          · exact Or.inr (Or.inl h)
          · exact Or.inl h
          · exact Or.inr (Or.inr h)
        · rintro (h | h | h)
          · exact Or.inr (Or.inl h)
          · exact Or.inl h
          · exact Or.inr (Or.inr h)

theorem cacheLookup_insert_self (c : BlockCache) (field : String) (rg : Nat)
    (v : VtValue) : cacheLookup (cacheInsert c field rg v) field rg = some v := by
  simp [cacheLookup, cacheInsert, lookupAssoc]

/-! Lemmas about paths, parsing and ancestors. -/

theorem parseAbsPath_prop_none (s : String) (p : SdfPath)
    (h : parseAbsPath s = some p) : p.prop = none := by
  unfold parseAbsPath at h
  split at h
  · exact Option.noConfusion h
  · split at h
    · split at h
      · injection h with h
        exact h ▸ rfl
      · split at h
        · injection h with h
          exact h ▸ rfl
        · exact Option.noConfusion h
    · exact Option.noConfusion h

theorem GetParentPath_prop_none (p : SdfPath) : p.GetParentPath.prop = none := by
  rcases p with ⟨parts, prop⟩
  cases prop <;> rfl

theorem depth_zero_root (p : SdfPath) (h : p.depth = 0) : p = SdfPath.root := by
  rcases p with ⟨parts, prop⟩
  cases prop with
  | some s => simp [SdfPath.depth] at h
  | none =>
    simp only [SdfPath.depth, Option.isSome_none, Bool.false_eq_true,
      if_false] at h
    have hnil : parts = [] := List.length_eq_zero.mp (by omega)
    simp [SdfPath.root, hnil]

theorem depth_parent_lt (p : SdfPath) (h : ¬p = SdfPath.root) :
    p.GetParentPath.depth < p.depth := by
  rcases p with ⟨parts, prop⟩
  cases prop with
  | some s =>
    simp [SdfPath.GetParentPath, SdfPath.depth]
  | none =>
    have hne : parts ≠ [] := by
      intro hnil
      exact h (by simp [SdfPath.root, hnil])
    have hpos : 0 < parts.length := List.length_pos.mpr hne
    simp only [SdfPath.GetParentPath, SdfPath.depth, List.length_dropLast]
    simp only [Option.isSome_none, Bool.false_eq_true, if_false]
    omega

theorem depth_pos_of_ne_root (p : SdfPath) (h : ¬p = SdfPath.root) :
    1 ≤ p.depth := by
  rcases Nat.eq_zero_or_pos p.depth with h0 | h0
  · exact absurd (depth_zero_root p h0) h
  · exact h0

theorem strictAncestorsF_congr (f1 f2 : Nat) (p : SdfPath)
    (h1 : p.depth ≤ f1) (h2 : p.depth ≤ f2) :
    strictAncestorsF f1 p = strictAncestorsF f2 p := by
  induction f1 generalizing f2 p with
  | zero =>
    have hp := depth_zero_root p (Nat.le_zero.mp h1)
    subst hp
    cases f2 with
    | zero => rfl
    | succ m => simp [strictAncestorsF]
  | succ n ih =>
    cases f2 with
    | zero =>
      have hp := depth_zero_root p (Nat.le_zero.mp h2)
      subst hp
      simp [strictAncestorsF]
    | succ m =>
      by_cases hr : p = SdfPath.root
      · simp [strictAncestorsF, hr]
      · simp only [strictAncestorsF, if_neg hr]
        have hpl := depth_parent_lt p hr
        congr 1
        exact ih m p.GetParentPath (by omega) (by omega)

theorem strictAncestors_eq (p : SdfPath) :
    p.strictAncestors =
      if p = SdfPath.root then []
      else p.GetParentPath :: p.GetParentPath.strictAncestors := by
  by_cases hr : p = SdfPath.root
  · subst hr
    simp [SdfPath.strictAncestors, SdfPath.root, SdfPath.depth, strictAncestorsF]
  · have hd := depth_pos_of_ne_root p hr
    obtain ⟨m, hm⟩ : ∃ m, p.depth = m + 1 := ⟨p.depth - 1, by omega⟩
    rw [if_neg hr]
    unfold SdfPath.strictAncestors
    rw [hm]
    simp only [strictAncestorsF, if_neg hr]
    have hpl := depth_parent_lt p hr
    congr 1
    exact strictAncestorsF_congr m _ p.GetParentPath (by omega) le_rfl

theorem mem_strictAncestors_prop_none (p a : SdfPath)
    (h : a ∈ p.strictAncestors) : a.prop = none := by
  have H : ∀ n p, p.depth ≤ n → a ∈ SdfPath.strictAncestors p →
      a.prop = none := by
    intro n
    induction n with
    | zero =>
      intro p hf ha
      have hp := depth_zero_root p (Nat.le_zero.mp hf)
      subst hp
      rw [strictAncestors_eq, if_pos rfl] at ha
      simp at ha
    | succ n ih =>
      intro p hf ha
      by_cases hr : p = SdfPath.root
      · subst hr
        rw [strictAncestors_eq, if_pos rfl] at ha
        simp at ha
      · rw [strictAncestors_eq, if_neg hr] at ha
        rcases List.mem_cons.mp ha with ha | ha
        · exact ha ▸ GetParentPath_prop_none p
        · have hpl := depth_parent_lt p hr
          exact ih p.GetParentPath (by omega) ha
  exact H p.depth p le_rfl h

theorem strictAncestors_trans (p q a : SdfPath)
    (hq : q ∈ p.strictAncestors) (ha : a ∈ q.strictAncestors) :
    a ∈ p.strictAncestors := by
  have H : ∀ n p, p.depth ≤ n → q ∈ SdfPath.strictAncestors p →
      a ∈ SdfPath.strictAncestors p := by
    intro n
    induction n with
    | zero =>
      intro p hf hmem
      have hp := depth_zero_root p (Nat.le_zero.mp hf)
      subst hp
      rw [strictAncestors_eq, if_pos rfl] at hmem
      simp at hmem
    | succ n ih =>
      intro p hf hmem
      by_cases hr : p = SdfPath.root
      · subst hr
        rw [strictAncestors_eq, if_pos rfl] at hmem
        simp at hmem
      · rw [strictAncestors_eq, if_neg hr] at hmem ⊢
        rcases List.mem_cons.mp hmem with hmem | hmem
        · exact List.mem_cons_of_mem _ (hmem ▸ ha)
        · have hpl := depth_parent_lt p hr
          exact List.mem_cons_of_mem _ (ih p.GetParentPath (by omega) hmem)
  exact H p.depth p le_rfl hq

/-! Lemmas about the upward walk of `_BuildPathHierarchy`. -/

theorem walkUpF_congr (f1 f2 : Nat) (p : SdfPath) (ap : List SdfPath)
    (cm : List (SdfPath × List String)) (h1 : p.depth ≤ f1)
    (h2 : p.depth ≤ f2) : walkUpF f1 p ap cm = walkUpF f2 p ap cm := by
  induction f1 generalizing f2 p ap cm with
  | zero =>
    have hp := depth_zero_root p (Nat.le_zero.mp h1)
    subst hp
    cases f2 with
    | zero => rfl
    | succ m => simp [walkUpF]
  | succ n ih =>
    cases f2 with
    | zero =>
      have hp := depth_zero_root p (Nat.le_zero.mp h2)
      subst hp
      simp [walkUpF]
    | succ m =>
      by_cases hr : p = SdfPath.root
      · simp [walkUpF, hr]
      · simp only [walkUpF, if_neg hr]
        have hpl := depth_parent_lt p hr
        exact ih m p.GetParentPath _ _ (by omega) (by omega)

theorem walkUp_root (ap : List SdfPath) (cm : List (SdfPath × List String)) :
    walkUp SdfPath.root ap cm = (ap, cm) := rfl

theorem walkUp_step (p : SdfPath) (ap : List SdfPath)
    (cm : List (SdfPath × List String)) (h : ¬p = SdfPath.root) :
    walkUp p ap cm =
      walkUp p.GetParentPath
        (if p.GetParentPath = SdfPath.root then ap
         else insSet pathLt p.GetParentPath ap)
        (addChild cm p.GetParentPath p.GetNameToken) := by
  have hd := depth_pos_of_ne_root p h
  obtain ⟨m, hm⟩ : ∃ m, p.depth = m + 1 := ⟨p.depth - 1, by omega⟩
  unfold walkUp
  rw [hm]
  simp only [walkUpF, if_neg h]
  have hpl := depth_parent_lt p h
  exact walkUpF_congr m _ p.GetParentPath _ _ (by omega) le_rfl

theorem walkUp_ap_mono (p : SdfPath) (ap : List SdfPath)
    (cm : List (SdfPath × List String)) (q : SdfPath) (h : q ∈ ap) :
    q ∈ (walkUp p ap cm).1 := by
  have H : ∀ n p ap cm, SdfPath.depth p ≤ n → q ∈ ap →
      q ∈ (walkUp p ap cm).1 := by
    intro n
    induction n with
    | zero =>
      intro p ap cm hf hq
      have hp := depth_zero_root p (Nat.le_zero.mp hf)
      subst hp
      rw [walkUp_root]
      exact hq
    | succ n ih =>
      intro p ap cm hf hq
      by_cases hr : p = SdfPath.root
      · subst hr
        rw [walkUp_root]
        exact hq
      · rw [walkUp_step p ap cm hr]
        have hpl := depth_parent_lt p hr
        refine ih p.GetParentPath _ _ (by omega) ?_
        split
        · exact hq
        · exact (mem_insSet_iff _ _ _ _).mpr (Or.inr hq)
  exact H p.depth p ap cm le_rfl h

theorem walkUp_anc_mem (p : SdfPath) (ap : List SdfPath)
    (cm : List (SdfPath × List String)) (a : SdfPath)
    (ha : a ∈ p.strictAncestors) (hr : a ≠ SdfPath.root) :
    a ∈ (walkUp p ap cm).1 := by
  have H : ∀ n p ap cm, SdfPath.depth p ≤ n → a ∈ SdfPath.strictAncestors p →
      a ∈ (walkUp p ap cm).1 := by
    intro n
    induction n with
    | zero =>
      intro p ap cm hf ha2
      have hp := depth_zero_root p (Nat.le_zero.mp hf)
      subst hp
      rw [strictAncestors_eq, if_pos rfl] at ha2
      simp at ha2
    | succ n ih =>
      intro p ap cm hf ha2
      by_cases hp : p = SdfPath.root
      · subst hp
        rw [strictAncestors_eq, if_pos rfl] at ha2
        simp at ha2
      · rw [strictAncestors_eq, if_neg hp] at ha2
        rw [walkUp_step p ap cm hp]
        rcases List.mem_cons.mp ha2 with ha2 | ha2
        · subst ha2
          apply walkUp_ap_mono
          split
          · next hroot => exact absurd hroot hr
          · exact (mem_insSet_iff _ _ _ _).mpr (Or.inl rfl)
        · have hpl := depth_parent_lt p hp
          exact ih p.GetParentPath _ _ (by omega) ha2
  exact H p.depth p ap cm le_rfl ha

theorem walkUp_mem_elim (p : SdfPath) (ap : List SdfPath)
    (cm : List (SdfPath × List String)) (q : SdfPath)
    (h : q ∈ (walkUp p ap cm).1) :
    q ∈ ap ∨ (q ∈ p.strictAncestors ∧ q ≠ SdfPath.root) := by
  have H : ∀ n p ap cm, SdfPath.depth p ≤ n → q ∈ (walkUp p ap cm).1 →
      q ∈ ap ∨ (q ∈ SdfPath.strictAncestors p ∧ q ≠ SdfPath.root) := by
    intro n
    induction n with
    | zero =>
      intro p ap cm hf hq
      have hp := depth_zero_root p (Nat.le_zero.mp hf)
      subst hp
      rw [walkUp_root] at hq
      exact Or.inl hq
    | succ n ih =>
      intro p ap cm hf hq
      by_cases hp : p = SdfPath.root
      · subst hp
        rw [walkUp_root] at hq
        exact Or.inl hq
      · rw [walkUp_step p ap cm hp] at hq
        have hpl := depth_parent_lt p hp
        rcases ih p.GetParentPath _ _ (by omega) hq with h2 | h2
        · by_cases hroot : p.GetParentPath = SdfPath.root
          · rw [if_pos hroot] at h2
            exact Or.inl h2
          · rw [if_neg hroot] at h2
            rcases (mem_insSet_iff _ _ _ _).mp h2 with h3 | h3
            · subst h3
              refine Or.inr ⟨?_, hroot⟩
              rw [strictAncestors_eq, if_neg hp]
              exact List.mem_cons_self _ _
            · exact Or.inl h3
        · refine Or.inr ⟨?_, h2.2⟩
          rw [strictAncestors_eq, if_neg hp]
          exact List.mem_cons_of_mem _ h2.1
  exact H p.depth p ap cm le_rfl h

/-! Lemmas about hierarchy synthesis as a fold. -/

theorem synthFold_ap_mono (ps : List SdfPath)
    (st0 : List SdfPath × List (SdfPath × List String)) (q : SdfPath)
    (h : q ∈ st0.1) : q ∈ (ps.foldl synthStep st0).1 := by
  induction ps generalizing st0 with
  | nil => exact h
  | cons p rest ih =>
    simp only [List.foldl_cons]
    apply ih
    unfold synthStep
    apply walkUp_ap_mono
    exact (mem_insSet_iff _ _ _ _).mpr (Or.inr h)

theorem synthFold_key_mem (ps : List SdfPath)
    (st0 : List SdfPath × List (SdfPath × List String)) (p : SdfPath)
    (hp : p ∈ ps) : p ∈ (ps.foldl synthStep st0).1 := by
  induction ps generalizing st0 with
  | nil => simp at hp
  | cons hd rest ih =>
    simp only [List.foldl_cons]
    rcases List.mem_cons.mp hp with h | h
    · subst h
      apply synthFold_ap_mono
      unfold synthStep
      apply walkUp_ap_mono
      exact (mem_insSet_iff _ _ _ _).mpr (Or.inl rfl)
    · exact ih _ h

theorem synthFold_anc_mem (ps : List SdfPath)
    (st0 : List SdfPath × List (SdfPath × List String)) (p a : SdfPath)
    (hp : p ∈ ps) (ha : a ∈ p.strictAncestors) (hr : a ≠ SdfPath.root) :
    a ∈ (ps.foldl synthStep st0).1 := by
  induction ps generalizing st0 with
  | nil => simp at hp
  | cons hd rest ih =>
    simp only [List.foldl_cons]
    rcases List.mem_cons.mp hp with h | h
    · subst h
      apply synthFold_ap_mono
      unfold synthStep
      exact walkUp_anc_mem _ _ _ _ ha hr
    · exact ih _ h

theorem synthFold_mem_elim (ps : List SdfPath)
    (st0 : List SdfPath × List (SdfPath × List String)) (q : SdfPath)
    (h : q ∈ (ps.foldl synthStep st0).1) :
    q ∈ st0.1 ∨ ∃ p ∈ ps, q = p ∨ q ∈ p.strictAncestors := by
  induction ps generalizing st0 with
  | nil => exact Or.inl h
  | cons hd rest ih =>
    simp only [List.foldl_cons] at h
    rcases ih _ h with h2 | h2
    · unfold synthStep at h2
      rcases walkUp_mem_elim _ _ _ _ h2 with h3 | h3
      · rcases (mem_insSet_iff _ _ _ _).mp h3 with h4 | h4
        · exact Or.inr ⟨hd, List.mem_cons_self _ _, Or.inl h4⟩
        · exact Or.inl h4
      · exact Or.inr ⟨hd, List.mem_cons_self _ _, Or.inr h3.1⟩
    · obtain ⟨p, hmem, hor⟩ := h2
      exact Or.inr ⟨p, List.mem_cons_of_mem _ hmem, hor⟩

theorem buildPathHierarchy_eq_synth (idx : List (SdfPath × ParquetLocation)) :
    buildPathHierarchy idx = synthFromScan (idx.map Prod.fst) := by
  unfold buildPathHierarchy synthFromScan
  rw [List.foldl_map]

/-! Lemmas about index construction and `Open`. -/

theorem indexBlockAux_keys (rg : Nat) (en : List (Nat × RawVal))
    (idx : List (SdfPath × ParquetLocation))
    (h0 : ∀ pr ∈ idx, (pr : SdfPath × ParquetLocation).1.prop = none) :
    ∀ pr ∈ en.foldl
      (fun idx2 iv =>
        match parseAbsPath (rawString iv.2) with
        | some p => insUpd pathLt p (fun _ => (⟨rg, iv.1⟩ : ParquetLocation)) idx2
        | none => idx2)
      idx, (pr : SdfPath × ParquetLocation).1.prop = none := by
  induction en generalizing idx with
  | nil => exact h0
  | cons iv rest ih =>
    simp only [List.foldl_cons]
    apply ih
    intro pr hpr
    rcases hp : parseAbsPath (rawString iv.2) with _ | p
    · rw [hp] at hpr
      exact h0 pr hpr
    · rw [hp] at hpr
      rcases mem_insUpd _ _ _ _ _ hpr with h | h
      · exact h ▸ parseAbsPath_prop_none _ _ hp
      · exact h0 pr h

theorem indexBlock_keys (rg : Nat) (vals : List RawVal)
    (idx : List (SdfPath × ParquetLocation))
    (h0 : ∀ pr ∈ idx, (pr : SdfPath × ParquetLocation).1.prop = none) :
    ∀ pr ∈ indexBlock rg vals idx,
      (pr : SdfPath × ParquetLocation).1.prop = none :=
  indexBlockAux_keys rg vals.enum idx h0

theorem buildIndex_keys (bs : List (Nat × ColBlock))
    (idx0 idx : List (SdfPath × ParquetLocation))
    (h : buildIndex bs idx0 = .ok idx)
    (h0 : ∀ pr ∈ idx0, (pr : SdfPath × ParquetLocation).1.prop = none) :
    ∀ pr ∈ idx, (pr : SdfPath × ParquetLocation).1.prop = none := by
  induction bs generalizing idx0 with
  | nil =>
    simp only [buildIndex] at h
    injection h with h
    exact h ▸ h0
  | cons hd rest ih =>
    rcases hd with ⟨rg, blk⟩
    cases blk with
    | fault => exact absurd h (by simp [buildIndex])
    | ok vals =>
      simp only [buildIndex] at h
      exact ih _ h (indexBlock_keys rg vals idx0 h0)

theorem openParquet_ok_elim (f : PqFile) (st : LayerState)
    (h : openParquet f = .ok st) :
    ∃ pci props idx,
      scanColumns f.columns = (some pci, props) ∧
      buildIndex (f.columns.getD pci noColumn).blocks.enum [] = .ok idx ∧
      st = ⟨idx, (buildPathHierarchy idx).1, (buildPathHierarchy idx).2,
        props⟩ := by
  unfold openParquet at h
  split at h
  next props heq => exact absurd h (by simp)
  next pci props heq =>
    split at h
    next e heq2 => exact absurd h (by simp)
    next idx heq2 =>
      injection h with h
      exact ⟨pci, props, idx, heq, heq2, h.symm⟩

theorem open_pathIndex_prop_none (f : PqFile) (st : LayerState)
    (h : openParquet f = .ok st) :
    ∀ pr ∈ st.pathIndex, (pr : SdfPath × ParquetLocation).1.prop = none := by
  obtain ⟨pci, props, idx, hsc, hbi, hst⟩ := openParquet_ok_elim f st h
  subst hst
  exact buildIndex_keys _ _ _ hbi (by intro pr hpr; simp at hpr)

theorem open_allPaths_prop_none (f : PqFile) (st : LayerState)
    (h : openParquet f = .ok st) :
    ∀ q ∈ st.allPaths, (q : SdfPath).prop = none := by
  obtain ⟨pci, props, idx, hsc, hbi, hst⟩ := openParquet_ok_elim f st h
  intro q hq
  have hkeys := buildIndex_keys _ _ _ hbi (by intro pr hpr; simp at hpr)
  rw [hst] at hq
  simp only [buildPathHierarchy_eq_synth] at hq
  rcases synthFold_mem_elim _ _ _ hq with h2 | h2
  · simp at h2
  · obtain ⟨p, hmem, hor⟩ := h2
    obtain ⟨pr, hpr, hprq⟩ := List.mem_map.mp hmem
    rcases hor with hor | hor
    · exact hor ▸ hprq ▸ hkeys pr hpr
    · exact mem_strictAncestors_prop_none _ _ hor

/-! Claim theorems. -/

/-- Claim C5: after hierarchy synthesis, the All-Nodes set is ancestrally
closed: it contains every indexed path, and for every path in All-Nodes
every strict ancestor other than the absolute root is also in All-Nodes,
transitively up to the root. -/
theorem c5_allPaths_ancestrally_closed (f : PqFile) (st : LayerState)
    (h : openParquet f = .ok st) :
    (∀ pr ∈ st.pathIndex, (pr : SdfPath × ParquetLocation).1 ∈ st.allPaths) ∧
    (∀ p ∈ st.allPaths, ∀ a ∈ (p : SdfPath).strictAncestors,
      a ≠ SdfPath.root → a ∈ st.allPaths) := by
  obtain ⟨pci, props, idx, hsc, hbi, hst⟩ := openParquet_ok_elim f st h
  subst hst
  simp only [buildPathHierarchy_eq_synth]
  constructor
  · intro pr hpr
    exact synthFold_key_mem _ _ _ (List.mem_map_of_mem _ hpr)
  · intro p hp a ha hr
    rcases synthFold_mem_elim _ _ _ hp with h2 | h2
    · simp at h2
    · obtain ⟨q, hqmem, hor⟩ := h2
      rcases hor with hor | hor
      · subst hor
        exact synthFold_anc_mem _ _ _ _ hqmem ha hr
      · exact synthFold_anc_mem _ _ _ _ hqmem
          (strictAncestors_trans _ _ _ hor ha) hr

/-- Witness for C5 at a concrete store: the synthesized ancestor `/World`
of the indexed path `/World/Sphere1` is in All-Nodes. -/
theorem c5_witness :
    (⟨["World"], none⟩ : SdfPath) ∈ (openState exFile).allPaths :=
  (c5_allPaths_ancestrally_closed exFile (openState exFile) rfl).2
    ⟨["World", "Sphere1"], none⟩ (by decide) ⟨["World"], none⟩ (by decide)
    (by decide)

/-- Claim C1: `HasSpec` returns true exactly for the absolute root, members
of the All-Nodes set, and well-formed field paths whose container prim is
indexed and whose field name is in the Field Catalog; it returns false for
every other path (e.g. `/DoesNotExist`). -/
theorem c1_hasSpec_iff (f : PqFile) (st : LayerState)
    (h : openParquet f = .ok st) (p : SdfPath) :
    HasSpec st p = true ↔
      (p = SdfPath.root ∨ p ∈ st.allPaths ∨
       (p.IsPropertyPath = true ∧
        (lookupAssoc st.pathIndex p.GetPrimPath).isSome = true ∧
        p.GetNameToken ∈ st.propertyNames)) := by
  by_cases hroot : p = SdfPath.root
  · simp [HasSpec, hroot]
  · by_cases hprop : p.IsPropertyPath = true
    · have hnotmem : p ∉ st.allPaths := by
        intro hm
        have hn := open_allPaths_prop_none f st h p hm
        unfold SdfPath.IsPropertyPath at hprop
        rw [hn] at hprop
        simp at hprop
      unfold HasSpec
      rw [if_neg hroot, if_pos hprop]
      rcases hidx : lookupAssoc st.pathIndex p.GetPrimPath with _ | loc
      · simp [hroot, hprop, hnotmem]
      · simp [hroot, hprop, hnotmem]
    · unfold HasSpec
      rw [if_neg hroot, if_neg hprop]
      have hpf : p.IsPropertyPath = false := by
        exact Bool.not_eq_true _ ▸ (eq_false_of_ne_true hprop)
      simp [hroot, hpf]

/-- Witness for C1 at a concrete store and the spec's example path
`/DoesNotExist`. -/
theorem c1_witness :
    HasSpec (openState exFile) ⟨["DoesNotExist"], none⟩ = true ↔
      ((⟨["DoesNotExist"], none⟩ : SdfPath) = SdfPath.root ∨
       (⟨["DoesNotExist"], none⟩ : SdfPath) ∈ (openState exFile).allPaths ∨
       (SdfPath.IsPropertyPath ⟨["DoesNotExist"], none⟩ = true ∧
        (lookupAssoc (openState exFile).pathIndex
          (SdfPath.GetPrimPath ⟨["DoesNotExist"], none⟩)).isSome = true ∧
        SdfPath.GetNameToken ⟨["DoesNotExist"], none⟩ ∈
          (openState exFile).propertyNames)) :=
  c1_hasSpec_iff exFile (openState exFile) rfl ⟨["DoesNotExist"], none⟩

/-- Claim C10: `HasSpec` and `GetSpecType` agree: `HasSpec` is true iff
`GetSpecType` is not Unknown; the root maps to PseudoRoot, All-Nodes
members to Prim, and valid field paths to Attribute. -/
theorem c10_hasSpec_getSpecType_agree (st : LayerState) (p : SdfPath) :
    (HasSpec st p = true ↔ GetSpecType st p ≠ SdfSpecType.unknown) ∧
    GetSpecType st SdfPath.root = SdfSpecType.pseudoRoot ∧
    (p ∈ st.allPaths → p.IsPropertyPath = false → p ≠ SdfPath.root →
      GetSpecType st p = SdfSpecType.prim) ∧
    (p.IsPropertyPath = true →
      (lookupAssoc st.pathIndex p.GetPrimPath).isSome = true →
      p.GetNameToken ∈ st.propertyNames →
      GetSpecType st p = SdfSpecType.attribute) := by
  refine ⟨?_, by simp [GetSpecType], ?_, ?_⟩
  · by_cases hroot : p = SdfPath.root
    · simp [HasSpec, GetSpecType, hroot]
    · by_cases hprop : p.IsPropertyPath = true
      · unfold HasSpec GetSpecType
        rw [if_neg hroot, if_neg hroot, if_pos hprop, if_pos hprop]
        rcases hidx : lookupAssoc st.pathIndex p.GetPrimPath with _ | loc
        · simp
        · by_cases hmem : p.GetNameToken ∈ st.propertyNames <;> simp [hmem]
      · have hpf : p.IsPropertyPath = false :=
          Bool.not_eq_true _ ▸ (eq_false_of_ne_true hprop)
        unfold HasSpec GetSpecType
        rw [if_neg hroot, if_neg hroot, if_neg hprop, if_neg hprop]
        by_cases hmem : p ∈ st.allPaths <;> simp [hmem]
  · intro hmem hpf hroot
    unfold GetSpecType
    rw [if_neg hroot, if_neg (by simp [hpf] : ¬p.IsPropertyPath = true)]
    simp [hmem]
  · intro hprop hidx hmem
    unfold GetSpecType
    rcases hlk : lookupAssoc st.pathIndex p.GetPrimPath with _ | loc
    · rw [hlk] at hidx
      simp at hidx
    · have hroot : ¬p = SdfPath.root := by
        intro hr
        subst hr
        unfold SdfPath.IsPropertyPath at hprop
        simp [SdfPath.root] at hprop
      rw [if_neg hroot, if_pos hprop]
      simp [hmem]

/-- Witness for C10 at a concrete store and path. -/
theorem c10_witness :
    (HasSpec (openState exFile) ⟨["World"], none⟩ = true ↔
      GetSpecType (openState exFile) ⟨["World"], none⟩ ≠
        SdfSpecType.unknown) ∧
    GetSpecType (openState exFile) SdfPath.root = SdfSpecType.pseudoRoot ∧
    ((⟨["World"], none⟩ : SdfPath) ∈ (openState exFile).allPaths →
      SdfPath.IsPropertyPath ⟨["World"], none⟩ = false →
      (⟨["World"], none⟩ : SdfPath) ≠ SdfPath.root →
      GetSpecType (openState exFile) ⟨["World"], none⟩ = SdfSpecType.prim) ∧
    (SdfPath.IsPropertyPath ⟨["World"], none⟩ = true →
      (lookupAssoc (openState exFile).pathIndex
        (SdfPath.GetPrimPath ⟨["World"], none⟩)).isSome = true →
      SdfPath.GetNameToken ⟨["World"], none⟩ ∈
        (openState exFile).propertyNames →
      GetSpecType (openState exFile) ⟨["World"], none⟩ =
        SdfSpecType.attribute) :=
  c10_hasSpec_getSpecType_agree (openState exFile) ⟨["World"], none⟩

theorem applyMut_id (st : LayerState) (op : MutOp) : applyMut st op = st := by
  cases op <;> rfl

theorem foldl_applyMut_id (st : LayerState) (ops : List MutOp) :
    ops.foldl applyMut st = st := by
  induction ops generalizing st with
  | nil => rfl
  | cons op rest ih =>
    simp only [List.foldl_cons, applyMut_id]
    exact ih st

/-- Claim C7: every mutation operation (`CreateSpec`, `Set`, `Erase`,
`EraseSpec`, `MoveSpec`, time-sample writes) is a no-op on the store's
state: after any sequence of mutation calls, `HasSpec`, `Has`, `Get`,
`List` and `GetSpecType` answer exactly as before. -/
theorem c7_mutations_noop (st : LayerState) (ops : List MutOp) (f : PqFile)
    (cache : BlockCache) (p : SdfPath) (fld : String) :
    ops.foldl applyMut st = st ∧
    HasSpec (ops.foldl applyMut st) p = HasSpec st p ∧
    Has f (ops.foldl applyMut st) cache p fld = Has f st cache p fld ∧
    Get f (ops.foldl applyMut st) cache p fld = Get f st cache p fld ∧
    ListFields (ops.foldl applyMut st) p = ListFields st p ∧
    GetSpecType (ops.foldl applyMut st) p = GetSpecType st p := by
  rw [foldl_applyMut_id]
  exact ⟨rfl, rfl, rfl, rfl, rfl, rfl⟩

theorem buildIndex_error_iff (blocks : List ColBlock) (n : Nat)
    (idx0 : List (SdfPath × ParquetLocation)) (e : OpenError) :
    buildIndex (blocks.enumFrom n) idx0 = .error e ↔
      (e = OpenError.corrupt ∧ ColBlock.fault ∈ blocks) := by
  induction blocks generalizing n idx0 with
  | nil => simp [List.enumFrom, buildIndex]
  | cons b rest ih =>
    cases b with
    | fault =>
      constructor
      · intro h
        have he : e = OpenError.corrupt := by
          simp only [List.enumFrom, buildIndex] at h
          injection h with h
          exact h.symm
        exact ⟨he, List.mem_cons_self _ _⟩
      · rintro ⟨he, -⟩
        subst he
        simp [List.enumFrom, buildIndex]
    | ok vals =>
      simp only [List.enumFrom, buildIndex]
      rw [ih]
      constructor
      · rintro ⟨he, hmem⟩
        exact ⟨he, List.mem_cons_of_mem _ hmem⟩
      · rintro ⟨he, hmem⟩
        rcases List.mem_cons.mp hmem with hmem | hmem
        · exact absurd hmem.symm (by simp)
        · exact ⟨he, hmem⟩

/-- Claim C8: `Open` fails in exactly two internal error situations: no
`path` column in the schema (`MissingPathColumn`), or a decode exception
while building the index (`Corrupt`, caught and converted to a clean
failure); in either case no store is produced. -/
theorem c8_open_error_iff (f : PqFile) (e : OpenError) :
    openParquet f = .error e ↔
      (((scanColumns f.columns).1 = none ∧ e = OpenError.missingPathColumn) ∨
       (∃ pci, (scanColumns f.columns).1 = some pci ∧
         ColBlock.fault ∈ (f.columns.getD pci noColumn).blocks ∧
         e = OpenError.corrupt)) := by
  constructor
  · intro h
    unfold openParquet at h
    split at h
    next props heq =>
      injection h with h
      refine Or.inl ⟨?_, h.symm⟩
      rw [heq]
    next pci props heq =>
      split at h
      next e2 heq2 =>
        have hee : buildIndex
            (List.enumFrom 0 (f.columns.getD pci noColumn).blocks) [] =
            .error e2 := heq2
        obtain ⟨he2, hmem⟩ := (buildIndex_error_iff _ _ _ _).mp hee
        injection h with h
        refine Or.inr ⟨pci, ?_, hmem, ?_⟩
        · rw [heq]
        · rw [← h, he2]
      next idx heq2 => exact Except.noConfusion h
  · intro hr
    unfold openParquet
    rcases hr with ⟨hnone, he⟩ | ⟨pci, hpci, hmem, he⟩
    · subst he
      split
      next props heq => rfl
      next pci props heq =>
        rw [heq] at hnone
        exact absurd hnone (by simp)
    · subst he
      split
      next props heq =>
        rw [heq] at hpci
        exact absurd hpci (by simp)
      next pci2 props heq =>
        rw [heq] at hpci
        have hpci2 : some pci2 = some pci := hpci
        injection hpci2 with hq
        subst hq
        split
        next e2 heq2 =>
          have hee : buildIndex
              (List.enumFrom 0 (f.columns.getD pci2 noColumn).blocks) [] =
              .error e2 := heq2
          obtain ⟨he2, -⟩ := (buildIndex_error_iff _ _ _ _).mp hee
          rw [he2]
        next idx heq2 =>
          have hcontra := (buildIndex_error_iff
            (f.columns.getD pci2 noColumn).blocks 0 [] OpenError.corrupt).mpr
            ⟨rfl, hmem⟩
          have hok : buildIndex
              (List.enumFrom 0 (f.columns.getD pci2 noColumn).blocks) [] =
              .ok idx := heq2
          rw [hok] at hcontra
          exact absurd hcontra (by simp)

theorem lookup_indexStep (rg : Nat) (en : List (Nat × RawVal))
    (idx : List (SdfPath × ParquetLocation)) (p : SdfPath) :
    lookupAssoc
      (en.foldl
        (fun idx2 iv =>
          match parseAbsPath (rawString iv.2) with
          | some q =>
            insUpd pathLt q (fun _ => (⟨rg, iv.1⟩ : ParquetLocation)) idx2
          | none => idx2)
        idx) p =
      en.foldl
        (fun acc iv =>
          if parseAbsPath (rawString iv.2) = some p then
            some (⟨rg, iv.1⟩ : ParquetLocation)
          else acc)
        (lookupAssoc idx p) := by
  induction en generalizing idx with
  | nil => rfl
  | cons iv rest ih =>
    simp only [List.foldl_cons]
    rcases hq : parseAbsPath (rawString iv.2) with _ | q
    · rw [ih]
      congr 1
    · rw [ih]
      congr 1
      rw [lookupAssoc_insUpd_const]
      by_cases hpq : p = q
      · rw [if_pos hpq, if_pos]
        exact congrArg some hpq.symm
      · rw [if_neg hpq, if_neg]
        intro hcon
        injection hcon with hcon
        exact hpq hcon.symm

theorem rowsOfBlocks_cons (rb : Nat × ColBlock) (rest : List (Nat × ColBlock)) :
    rowsOfBlocks (rb :: rest) =
      (match rb.2 with
       | ColBlock.ok vals =>
         vals.enum.map (fun iv => (rb.1, iv.1, rawString iv.2))
       | ColBlock.fault => []) ++ rowsOfBlocks rest := by
  simp [rowsOfBlocks]

theorem lookup_buildIndex (bs : List (Nat × ColBlock))
    (idx0 idx : List (SdfPath × ParquetLocation)) (p : SdfPath)
    (h : buildIndex bs idx0 = .ok idx) :
    lookupAssoc idx p =
      (rowsOfBlocks bs).foldl
        (fun acc r =>
          if parseAbsPath r.2.2 = some p then
            some (⟨r.1, r.2.1⟩ : ParquetLocation)
          else acc)
        (lookupAssoc idx0 p) := by
  induction bs generalizing idx0 with
  | nil =>
    injection h with h
    subst h
    rfl
  | cons hd rest ih =>
    rcases hd with ⟨rg, blk⟩
    cases blk with
    | fault => exact absurd h (by simp [buildIndex])
    | ok vals =>
      simp only [buildIndex] at h
      rw [ih _ h, rowsOfBlocks_cons]
      rw [List.foldl_append]
      congr 1
      rw [List.foldl_map]
      exact lookup_indexStep rg vals.enum idx0 p

theorem foldl_lastLoc_isSome (rows : List (Nat × Nat × String)) (p : SdfPath)
    (init : Option ParquetLocation) :
    ((rows.foldl
        (fun acc r =>
          if parseAbsPath r.2.2 = some p then
            some (⟨r.1, r.2.1⟩ : ParquetLocation)
          else acc)
        init).isSome = true) ↔
      (init.isSome = true ∨
       ∃ r ∈ rows, parseAbsPath (r : Nat × Nat × String).2.2 = some p) := by
  induction rows generalizing init with
  | nil => simp
  | cons r rest ih =>
    simp only [List.foldl_cons]
    rw [ih]
    by_cases hc : parseAbsPath r.2.2 = some p
    · simp [hc]
    · simp [hc]

/-- Claim C6: after a successful open, the path index maps exactly the
well-formed absolute path strings occurring in the path column: malformed
rows are skipped silently, and a repeated path records the storage location
of its last occurrence in scan order (last-write-wins). -/
theorem c6_pathIndex_last_write_wins (f : PqFile) (st : LayerState)
    (h : openParquet f = .ok st) (p : SdfPath) :
    lookupAssoc st.pathIndex p = lastLocOf f p ∧
    ((lookupAssoc st.pathIndex p).isSome = true ↔
      ∃ r ∈ colRows (pathColOf f),
        parseAbsPath (r : Nat × Nat × String).2.2 = some p) := by
  obtain ⟨pci, props, idx, hsc, hbi, hst⟩ := openParquet_ok_elim f st h
  subst hst
  have hcol : pathColOf f = f.columns.getD pci noColumn := by
    unfold pathColOf
    rw [hsc]
  have hmain : lookupAssoc idx p = lastLocOf f p := by
    rw [lookup_buildIndex _ _ _ p hbi]
    unfold lastLocOf
    rw [hcol]
    rfl
  refine ⟨hmain, ?_⟩
  have hsimp : lookupAssoc
      (⟨idx, (buildPathHierarchy idx).1, (buildPathHierarchy idx).2,
        props⟩ : LayerState).pathIndex p = lookupAssoc idx p := rfl
  rw [hsimp, hmain]
  unfold lastLocOf
  simpa using foldl_lastLoc_isSome (colRows (pathColOf f)) p none

/-- Witness for C6 at a concrete store and path. -/
theorem c6_witness :
    lookupAssoc (openState exFile).pathIndex ⟨["World", "Sphere1"], none⟩ =
      lastLocOf exFile ⟨["World", "Sphere1"], none⟩ ∧
    ((lookupAssoc (openState exFile).pathIndex
        ⟨["World", "Sphere1"], none⟩).isSome = true ↔
      ∃ r ∈ colRows (pathColOf exFile),
        parseAbsPath (r : Nat × Nat × String).2.2 =
          some ⟨["World", "Sphere1"], none⟩) :=
  c6_pathIndex_last_write_wins exFile (openState exFile) rfl
    ⟨["World", "Sphere1"], none⟩

/-! Lemmas about the block cache. -/

theorem supported_decode_some (t : PhysType) (vals : List RawVal)
    (h : supportedType t = true) : ∃ b, decodeBlock t vals = some b := by
  cases t
  case tOther => simp [supportedType] at h
  all_goals exact ⟨_, rfl⟩

theorem loadBlockCnt_hit (f : PqFile) (cache : BlockCache) (fname : String)
    (rg : Nat) (hhit : (cacheLookup cache fname rg).isSome = true) :
    loadBlockCnt f cache fname rg = (cache, 0) := by
  unfold loadBlockCnt
  rw [if_pos hhit]

theorem loadBlockCnt_spec (f : PqFile) (cache : BlockCache) (fname : String)
    (rg : Nat) (ci : Nat) (vals : List RawVal) (b : VtValue)
    (hci : findColIdx f.columns fname = some ci)
    (hblk : (f.columns.getD ci noColumn).blocks.getD rg ColBlock.fault =
      ColBlock.ok vals)
    (hsupp : supportedType (f.columns.getD ci noColumn).ctype = true)
    (hmiss : cacheLookup cache fname rg = none)
    (hb : decodeBlock (f.columns.getD ci noColumn).ctype vals = some b) :
    loadBlockCnt f cache fname rg = (cacheInsert cache fname rg b, 1) := by
  have hnomiss : ¬(cacheLookup cache fname rg).isSome = true := by
    rw [hmiss]
    simp
  rcases ht : (f.columns.getD ci noColumn).ctype
  case tOther =>
    rw [ht] at hsupp
    simp [supportedType] at hsupp
  all_goals
    rw [ht] at hb
    unfold loadBlockCnt
    rw [if_neg hnomiss, hci]
    simp only [ht, hblk, decodeBlock] at hb ⊢
    injection hb with hb
    rw [hb]

theorem loadedBlock_spec (f : PqFile) (cache : BlockCache) (fname : String)
    (rg : Nat) (ci : Nat) (vals : List RawVal) (b : VtValue)
    (hci : findColIdx f.columns fname = some ci)
    (hblk : (f.columns.getD ci noColumn).blocks.getD rg ColBlock.fault =
      ColBlock.ok vals)
    (hsupp : supportedType (f.columns.getD ci noColumn).ctype = true)
    (hb : decodeBlock (f.columns.getD ci noColumn).ctype vals = some b)
    (hcache : cacheLookup cache fname rg = none ∨
      cacheLookup cache fname rg =
        decodeBlock (f.columns.getD ci noColumn).ctype vals) :
    loadedBlock f cache fname rg = (some b, loadBlock f cache fname rg) ∧
    cacheLookup (loadBlock f cache fname rg) fname rg = some b := by
  rcases hcache with hc | hc
  · have hload := loadBlockCnt_spec f cache fname rg ci vals b hci hblk hsupp
      hc hb
    have hl : loadBlock f cache fname rg = cacheInsert cache fname rg b := by
      unfold loadBlock
      rw [hload]
    have hlk : cacheLookup (loadBlock f cache fname rg) fname rg = some b := by
      rw [hl]
      exact cacheLookup_insert_self cache fname rg b
    refine ⟨?_, hlk⟩
    unfold loadedBlock
    simp only [hlk]
  · have hsome : cacheLookup cache fname rg = some b := by
      rw [hc, hb]
    have hhit : (cacheLookup cache fname rg).isSome = true := by
      rw [hsome]
      rfl
    have hl : loadBlock f cache fname rg = cache := by
      unfold loadBlock
      rw [loadBlockCnt_hit f cache fname rg hhit]
    rw [hl]
    refine ⟨?_, hsome⟩
    unfold loadedBlock loadBlock
    rw [loadBlockCnt_hit f cache fname rg hhit]
    simp only [hsome]

/-- Claim C4: loading the same (field, block) pair twice performs exactly
one underlying batch decode: the first call decodes once and caches the
block, the second call is a pure cache hit performing no read and leaving
the cache unchanged. -/
theorem c4_load_block_single_decode (f : PqFile) (cache : BlockCache)
    (fname : String) (rg : Nat) (ci : Nat) (vals : List RawVal)
    (hci : findColIdx f.columns fname = some ci)
    (hblk : (f.columns.getD ci noColumn).blocks.getD rg ColBlock.fault =
      ColBlock.ok vals)
    (hsupp : supportedType (f.columns.getD ci noColumn).ctype = true)
    (hmiss : cacheLookup cache fname rg = none) :
    (loadBlockCnt f cache fname rg).2 = 1 ∧
    cacheLookup (loadBlockCnt f cache fname rg).1 fname rg =
      decodeBlock (f.columns.getD ci noColumn).ctype vals ∧
    loadBlockCnt f (loadBlockCnt f cache fname rg).1 fname rg =
      ((loadBlockCnt f cache fname rg).1, 0) := by
  obtain ⟨b, hb⟩ := supported_decode_some _ vals hsupp
  have hload := loadBlockCnt_spec f cache fname rg ci vals b hci hblk hsupp
    hmiss hb
  rw [hload]
  have hlk : cacheLookup (cacheInsert cache fname rg b, 1).1 fname rg =
      some b := cacheLookup_insert_self cache fname rg b
  refine ⟨rfl, by rw [hlk, hb], ?_⟩
  exact loadBlockCnt_hit f _ fname rg (by rw [hlk]; rfl)

/-- Witness for C4 at a concrete file, field and block. -/
theorem c4_witness :
    (loadBlockCnt exFile [] "temp" 0).2 = 1 ∧
    cacheLookup (loadBlockCnt exFile [] "temp" 0).1 "temp" 0 =
      decodeBlock (exFile.columns.getD 1 noColumn).ctype [RawVal.rF32 77] ∧
    loadBlockCnt exFile (loadBlockCnt exFile [] "temp" 0).1 "temp" 0 =
      ((loadBlockCnt exFile [] "temp" 0).1, 0) :=
  c4_load_block_single_decode exFile [] "temp" 0 1 [RawVal.rF32 77]
    (by decide) (by decide) (by decide) rfl

/-! Reduction of `Get`/`Has` on field paths. -/

theorem GetPrimPath_of_prop_none (prim : SdfPath) (fname : String)
    (hprim : prim.prop = none) :
    SdfPath.GetPrimPath ⟨prim.parts, some fname⟩ = prim := by
  rcases prim with ⟨parts, prop⟩
  have hp : prop = none := hprim
  subst hp
  rfl

theorem Get_prop_eq (f : PqFile) (st : LayerState) (cache : BlockCache)
    (prim : SdfPath) (fname : String) (loc : ParquetLocation) (field : String)
    (hprim : prim.prop = none)
    (hidx : lookupAssoc st.pathIndex prim = some loc)
    (hcat : fname ∈ st.propertyNames)
    (hfld : field = SdfFieldKeys.Default ∨ field = SdfFieldKeys.TypeName) :
    Get f st cache ⟨prim.parts, some fname⟩ field =
      getPropField f cache fname loc field := by
  have h1 : ¬field = SdfChildrenKeys.PrimChildren := by
    rcases hfld with h | h <;> subst h <;> decide
  have h2 : ¬(field = SdfChildrenKeys.PropertyChildren ∧
      (lookupAssoc st.pathIndex ⟨prim.parts, some fname⟩).isSome = true) := by
    rintro ⟨hf, -⟩
    rcases hfld with h | h <;> subst h <;> exact absurd hf (by decide)
  have h3 : ¬(field = SdfFieldKeys.Specifier ∧
      (⟨prim.parts, some fname⟩ : SdfPath) ∈ st.allPaths) := by
    rintro ⟨hf, -⟩
    rcases hfld with h | h <;> subst h <;> exact absurd hf (by decide)
  unfold Get
  rw [if_neg h1, if_neg h2, if_neg h3,
    if_pos (show SdfPath.IsPropertyPath ⟨prim.parts, some fname⟩ = true
      from rfl),
    GetPrimPath_of_prop_none prim fname hprim, hidx]
  simp only [SdfPath.GetNameToken]
  rw [if_pos hcat]

theorem Has_prop_default (f : PqFile) (st : LayerState) (cache : BlockCache)
    (prim : SdfPath) (fname : String) (loc : ParquetLocation)
    (hprim : prim.prop = none)
    (hidx : lookupAssoc st.pathIndex prim = some loc)
    (hcat : fname ∈ st.propertyNames) :
    Has f st cache ⟨prim.parts, some fname⟩ SdfFieldKeys.Default =
      (if (Get f st cache ⟨prim.parts, some fname⟩ SdfFieldKeys.Default).1 =
          VtValue.empty then
        ((false, none),
          (Get f st cache ⟨prim.parts, some fname⟩ SdfFieldKeys.Default).2)
       else
        ((true,
          some (Get f st cache ⟨prim.parts, some fname⟩
            SdfFieldKeys.Default).1),
          (Get f st cache ⟨prim.parts, some fname⟩ SdfFieldKeys.Default).2)) := by
  unfold Has
  rw [if_pos (show SdfPath.IsPropertyPath ⟨prim.parts, some fname⟩ = true
      from rfl),
    GetPrimPath_of_prop_none prim fname hprim, hidx]
  simp only [SdfPath.GetNameToken]
  rw [if_pos hcat, if_true]

theorem Has_prop_typeName (f : PqFile) (st : LayerState) (cache : BlockCache)
    (prim : SdfPath) (fname : String) (loc : ParquetLocation)
    (hprim : prim.prop = none)
    (hidx : lookupAssoc st.pathIndex prim = some loc)
    (hcat : fname ∈ st.propertyNames) :
    Has f st cache ⟨prim.parts, some fname⟩ SdfFieldKeys.TypeName =
      (match loadedBlock f cache fname loc.rowGroup with
       | (some block, c1) =>
         (match blockTypeToken block with
          | some t => ((true, some (VtValue.typeNameVal t)), c1)
          | none => ((true, none), c1))
       | (none, c1) => ((true, none), c1)) := by
  unfold Has
  rw [if_pos (show SdfPath.IsPropertyPath ⟨prim.parts, some fname⟩ = true
      from rfl),
    GetPrimPath_of_prop_none prim fname hprim, hidx]
  simp only [SdfPath.GetNameToken]
  rw [if_pos hcat, if_neg (by decide :
    ¬SdfFieldKeys.TypeName = SdfFieldKeys.Default), if_true]

theorem getD_map_of_get? {α β : Type} (g : α → β) (l : List α) (off : Nat)
    (v : α) (d : β) (hv : l.get? off = some v) : (l.map g).getD off d = g v := by
  rw [List.getD_eq_getElem?_getD, List.getElem?_map, ← List.get?_eq_getElem?,
    hv]
  rfl

theorem extractAt_decode (t : PhysType) (vals : List RawVal) (off : Nat)
    (v : RawVal) (b : VtValue) (hv : vals.get? off = some v)
    (hb : decodeBlock t vals = some b) :
    extractAt b off = scalarVal t v := by
  cases t
  case tOther => exact Option.noConfusion hb
  all_goals
    injection hb with hb
    subst hb
    simp only [extractAt, scalarVal]
    rw [getD_map_of_get? _ _ _ _ _ hv]

theorem blockTypeToken_decode (t : PhysType) (vals : List RawVal) (b : VtValue)
    (hsupp : supportedType t = true) (hb : decodeBlock t vals = some b) :
    blockTypeToken b = some (typeToken t) := by
  cases t
  case tOther => simp [supportedType] at hsupp
  all_goals
    injection hb with hb
    subst hb
    rfl

/-- Claim C2: for a data node with field `f` of supported physical type T
holding value v at the node's storage location, `Get` on the field path
with the value selector returns v typed as T, and with the type selector
returns T's type name; both results are identical across repeated calls
(cache-backed). -/
theorem c2_get_value_and_type (f : PqFile) (st : LayerState)
    (cache : BlockCache) (prim : SdfPath) (fname : String)
    (loc : ParquetLocation) (ci : Nat) (vals : List RawVal) (v : RawVal)
    (hprim : prim.prop = none)
    (hidx : lookupAssoc st.pathIndex prim = some loc)
    (hcat : fname ∈ st.propertyNames)
    (hci : findColIdx f.columns fname = some ci)
    (hblk : (f.columns.getD ci noColumn).blocks.getD loc.rowGroup
      ColBlock.fault = ColBlock.ok vals)
    (hsupp : supportedType (f.columns.getD ci noColumn).ctype = true)
    (hv : vals.get? loc.rowOffset = some v)
    (hcache : cacheLookup cache fname loc.rowGroup = none ∨
      cacheLookup cache fname loc.rowGroup =
        decodeBlock (f.columns.getD ci noColumn).ctype vals) :
    (Get f st cache ⟨prim.parts, some fname⟩ SdfFieldKeys.Default).1 =
      scalarVal (f.columns.getD ci noColumn).ctype v ∧
    (Get f st cache ⟨prim.parts, some fname⟩ SdfFieldKeys.TypeName).1 =
      VtValue.tokenVal (typeToken (f.columns.getD ci noColumn).ctype) ∧
    (Get f st
        (Get f st cache ⟨prim.parts, some fname⟩ SdfFieldKeys.Default).2
        ⟨prim.parts, some fname⟩ SdfFieldKeys.Default).1 =
      scalarVal (f.columns.getD ci noColumn).ctype v ∧
    (Get f st
        (Get f st cache ⟨prim.parts, some fname⟩ SdfFieldKeys.TypeName).2
        ⟨prim.parts, some fname⟩ SdfFieldKeys.TypeName).1 =
      VtValue.tokenVal (typeToken (f.columns.getD ci noColumn).ctype) := by
  obtain ⟨b, hb⟩ := supported_decode_some _ vals hsupp
  have key : ∀ c : BlockCache,
      (cacheLookup c fname loc.rowGroup = none ∨
       cacheLookup c fname loc.rowGroup =
         decodeBlock (f.columns.getD ci noColumn).ctype vals) →
      (Get f st c ⟨prim.parts, some fname⟩ SdfFieldKeys.Default).1 =
        scalarVal (f.columns.getD ci noColumn).ctype v ∧
      (Get f st c ⟨prim.parts, some fname⟩ SdfFieldKeys.TypeName).1 =
        VtValue.tokenVal (typeToken (f.columns.getD ci noColumn).ctype) ∧
      cacheLookup
        (Get f st c ⟨prim.parts, some fname⟩ SdfFieldKeys.Default).2 fname
        loc.rowGroup =
        decodeBlock (f.columns.getD ci noColumn).ctype vals ∧
      cacheLookup
        (Get f st c ⟨prim.parts, some fname⟩ SdfFieldKeys.TypeName).2 fname
        loc.rowGroup =
        decodeBlock (f.columns.getD ci noColumn).ctype vals := by
    intro c hc
    obtain ⟨hlbpair, hlk⟩ := loadedBlock_spec f c fname loc.rowGroup ci vals b
      hci hblk hsupp hb hc
    have hgd : Get f st c ⟨prim.parts, some fname⟩ SdfFieldKeys.Default =
        (extractAt b loc.rowOffset, loadBlock f c fname loc.rowGroup) := by
      rw [Get_prop_eq f st c prim fname loc _ hprim hidx hcat (Or.inl rfl)]
      unfold getPropField
      rw [if_pos rfl, hlbpair]
    have hgt : Get f st c ⟨prim.parts, some fname⟩ SdfFieldKeys.TypeName =
        (VtValue.tokenVal (typeToken (f.columns.getD ci noColumn).ctype),
          loadBlock f c fname loc.rowGroup) := by
      rw [Get_prop_eq f st c prim fname loc _ hprim hidx hcat (Or.inr rfl)]
      unfold getPropField
      rw [if_neg (by decide : ¬SdfFieldKeys.TypeName = SdfFieldKeys.Default),
        if_pos rfl, hlbpair]
      simp only [blockTypeToken_decode _ vals b hsupp hb]
    refine ⟨?_, ?_, ?_, ?_⟩
    · rw [hgd]
      exact extractAt_decode _ vals loc.rowOffset v b hv hb
    · rw [hgt]
    · rw [hgd]
      rw [hlk, hb]
    · rw [hgt]
      rw [hlk, hb]
  obtain ⟨h1, h2, h3, h4⟩ := key cache hcache
  exact ⟨h1, h2, (key _ (Or.inr h3)).1, (key _ (Or.inr h4)).2.1⟩

/-- Witness for C2 at a concrete store, field path and value. -/
theorem c2_witness :
    (Get exFile (openState exFile) [] ⟨["World", "Sphere1"], some "temp"⟩
        SdfFieldKeys.Default).1 =
      scalarVal (exFile.columns.getD 1 noColumn).ctype (RawVal.rF32 77) ∧
    (Get exFile (openState exFile) [] ⟨["World", "Sphere1"], some "temp"⟩
        SdfFieldKeys.TypeName).1 =
      VtValue.tokenVal (typeToken (exFile.columns.getD 1 noColumn).ctype) ∧
    (Get exFile (openState exFile)
        (Get exFile (openState exFile) []
          ⟨["World", "Sphere1"], some "temp"⟩ SdfFieldKeys.Default).2
        ⟨["World", "Sphere1"], some "temp"⟩ SdfFieldKeys.Default).1 =
      scalarVal (exFile.columns.getD 1 noColumn).ctype (RawVal.rF32 77) ∧
    (Get exFile (openState exFile)
        (Get exFile (openState exFile) []
          ⟨["World", "Sphere1"], some "temp"⟩ SdfFieldKeys.TypeName).2
        ⟨["World", "Sphere1"], some "temp"⟩ SdfFieldKeys.TypeName).1 =
      VtValue.tokenVal (typeToken (exFile.columns.getD 1 noColumn).ctype) :=
  c2_get_value_and_type exFile (openState exFile) [] ⟨["World", "Sphere1"], none⟩
    "temp" ⟨0, 0⟩ 1 [RawVal.rF32 77] (RawVal.rF32 77) rfl (by decide)
    (by decide) (by decide) (by decide) (by decide) (by decide) (Or.inl rfl)

/-- Counterexample to C9 as stated: on a file whose `temp` column has an
unsupported physical type, with the container `/A` indexed and `temp` in
the Field Catalog, `Has` on the type selector returns true (a spurious
success with no value stored) instead of resolving to a not-found
outcome. -/
theorem c9_counterexample :
    lookupAssoc (openState unsuppFile).pathIndex ⟨["A"], none⟩ =
      some ⟨0, 0⟩ ∧
    "temp" ∈ (openState unsuppFile).propertyNames ∧
    findColIdx unsuppFile.columns "temp" = some 1 ∧
    (unsuppFile.columns.getD 1 noColumn).ctype = PhysType.tOther ∧
    (Has unsuppFile (openState unsuppFile) [] ⟨["A"], some "temp"⟩
        SdfFieldKeys.TypeName).1 = (true, none) ∧
    ¬(Has unsuppFile (openState unsuppFile) [] ⟨["A"], some "temp"⟩
        SdfFieldKeys.TypeName).1.1 = false :=
  ⟨rfl, by decide, rfl, rfl, rfl, by decide⟩

/-- Claim C9 as amended: for a field path whose container is indexed and
whose field name is cataloged but whose column has an unsupported physical
type, `_LoadBlock` decodes and caches nothing, `Get` returns an empty
value for both the value and the type selector, and `Has` on the value
selector returns false; however `Has` on the type selector returns true
while writing no value through the out-pointer. -/
theorem c9_unsupported_type_amended (f : PqFile) (st : LayerState)
    (cache : BlockCache) (prim : SdfPath) (fname : String)
    (loc : ParquetLocation) (ci : Nat)
    (hprim : prim.prop = none)
    (hidx : lookupAssoc st.pathIndex prim = some loc)
    (hcat : fname ∈ st.propertyNames)
    (hci : findColIdx f.columns fname = some ci)
    (htype : (f.columns.getD ci noColumn).ctype = PhysType.tOther)
    (hmiss : cacheLookup cache fname loc.rowGroup = none) :
    loadBlockCnt f cache fname loc.rowGroup = (cache, 0) ∧
    (Get f st cache ⟨prim.parts, some fname⟩ SdfFieldKeys.Default).1 =
      VtValue.empty ∧
    (Get f st cache ⟨prim.parts, some fname⟩ SdfFieldKeys.TypeName).1 =
      VtValue.empty ∧
    (Has f st cache ⟨prim.parts, some fname⟩ SdfFieldKeys.Default).1 =
      (false, none) ∧
    (Has f st cache ⟨prim.parts, some fname⟩ SdfFieldKeys.TypeName).1 =
      (true, none) := by
  have hnomiss : ¬(cacheLookup cache fname loc.rowGroup).isSome = true := by
    rw [hmiss]
    simp
  have hload : loadBlockCnt f cache fname loc.rowGroup = (cache, 0) := by
    unfold loadBlockCnt
    rw [if_neg hnomiss, hci]
    simp only [htype]
  have hlb : loadedBlock f cache fname loc.rowGroup =
      (none, cacheInsert cache fname loc.rowGroup VtValue.empty) := by
    unfold loadedBlock loadBlock
    rw [hload]
    simp only [hmiss]
  have hgd : Get f st cache ⟨prim.parts, some fname⟩ SdfFieldKeys.Default =
      (VtValue.empty, cacheInsert cache fname loc.rowGroup VtValue.empty) := by
    rw [Get_prop_eq f st cache prim fname loc _ hprim hidx hcat (Or.inl rfl)]
    unfold getPropField
    rw [if_pos rfl, hlb]
  have hgt : Get f st cache ⟨prim.parts, some fname⟩ SdfFieldKeys.TypeName =
      (VtValue.empty, cacheInsert cache fname loc.rowGroup VtValue.empty) := by
    rw [Get_prop_eq f st cache prim fname loc _ hprim hidx hcat (Or.inr rfl)]
    unfold getPropField
    rw [if_neg (by decide : ¬SdfFieldKeys.TypeName = SdfFieldKeys.Default),
      if_pos rfl, hlb]
  refine ⟨hload, by rw [hgd], by rw [hgt], ?_, ?_⟩
  · rw [Has_prop_default f st cache prim fname loc hprim hidx hcat, hgd]
    rw [if_pos rfl]
  · rw [Has_prop_typeName f st cache prim fname loc hprim hidx hcat, hlb]

/-- Witness for the amended C9 at the concrete unsupported-type file. -/
theorem c9_witness :
    loadBlockCnt unsuppFile [] "temp" 0 = ([], 0) ∧
    (Get unsuppFile (openState unsuppFile) [] ⟨["A"], some "temp"⟩
        SdfFieldKeys.Default).1 = VtValue.empty ∧
    (Get unsuppFile (openState unsuppFile) [] ⟨["A"], some "temp"⟩
        SdfFieldKeys.TypeName).1 = VtValue.empty ∧
    (Has unsuppFile (openState unsuppFile) [] ⟨["A"], some "temp"⟩
        SdfFieldKeys.Default).1 = (false, none) ∧
    (Has unsuppFile (openState unsuppFile) [] ⟨["A"], some "temp"⟩
        SdfFieldKeys.TypeName).1 = (true, none) :=
  c9_unsupported_type_amended unsuppFile (openState unsuppFile) []
    ⟨["A"], none⟩ "temp" ⟨0, 0⟩ 1 rfl (by decide) (by decide) (by decide)
    (by decide) rfl

/-! Order lemmas for the path comparator. -/

theorem charListLt_irrefl (a : List Char) : charListLt a a = false := by
  induction a with
  | nil => rfl
  | cons c rest ih =>
    simp only [charListLt]
    rw [if_neg (by omega), if_neg (by omega)]
    exact ih

theorem charListLt_trans (a b c : List Char) (h1 : charListLt a b = true)
    (h2 : charListLt b c = true) : charListLt a c = true := by
  induction a generalizing b c with
  | nil =>
    cases b with
    | nil => simp [charListLt] at h1
    | cons bh bt =>
      cases c with
      | nil => simp [charListLt] at h2
      | cons ch ct => simp [charListLt]
  | cons ah atl ih =>
    cases b with
    | nil => simp [charListLt] at h1
    | cons bh bt =>
      cases c with
      | nil => simp [charListLt] at h2
      | cons ch ct =>
        simp only [charListLt] at h1 h2 ⊢
        by_cases hab1 : ah.val.toNat < bh.val.toNat
        · by_cases hbc1 : bh.val.toNat < ch.val.toNat
          · rw [if_pos (by omega)]
          · rw [if_neg hbc1] at h2
            by_cases hbc2 : ch.val.toNat < bh.val.toNat
            · rw [if_pos hbc2] at h2
              exact absurd h2 (by simp)
            · rw [if_pos (by omega)]
        · rw [if_neg hab1] at h1
          by_cases hab2 : bh.val.toNat < ah.val.toNat
          · rw [if_pos hab2] at h1
            exact absurd h1 (by simp)
          · rw [if_neg hab2] at h1
            by_cases hbc1 : bh.val.toNat < ch.val.toNat
            · rw [if_pos (by omega)]
            · rw [if_neg hbc1] at h2
              by_cases hbc2 : ch.val.toNat < bh.val.toNat
              · rw [if_pos hbc2] at h2
                exact absurd h2 (by simp)
              · rw [if_neg hbc2] at h2
                rw [if_neg (by omega), if_neg (by omega)]
                exact ih bt ct h1 h2

theorem charListLt_connex (a b : List Char) (h : a ≠ b) :
    charListLt a b = true ∨ charListLt b a = true := by
  induction a generalizing b with
  | nil =>
    cases b with
    | nil => exact absurd rfl h
    | cons bh bt => exact Or.inl (by simp [charListLt])
  | cons ah atl ih =>
    cases b with
    | nil => exact Or.inr (by simp [charListLt])
    | cons bh bt =>
      by_cases h1 : ah.val.toNat < bh.val.toNat
      · exact Or.inl (by simp only [charListLt]; rw [if_pos h1])
      · by_cases h2 : bh.val.toNat < ah.val.toNat
        · exact Or.inr (by simp only [charListLt]; rw [if_pos h2])
        · have hch : ah = bh := Char.ext (UInt32.ext (by omega))
          have hta : atl ≠ bt := by
            intro hcon
            exact h (by rw [hch, hcon])
          rcases ih bt hta with hl | hl
          · refine Or.inl ?_
            simp only [charListLt]
            rw [if_neg h1, if_neg h2]
            exact hl
          · refine Or.inr ?_
            simp only [charListLt]
            rw [if_neg (by omega), if_neg (by omega)]
            exact hl

theorem strLt_irrefl (a : String) : strLt a a = false :=
  charListLt_irrefl a.data

theorem strLt_trans (a b c : String) (h1 : strLt a b = true)
    (h2 : strLt b c = true) : strLt a c = true :=
  charListLt_trans a.data b.data c.data h1 h2

theorem strLt_connex (a b : String) (h : a ≠ b) :
    strLt a b = true ∨ strLt b a = true :=
  charListLt_connex a.data b.data (fun hc => h (String.ext hc))

theorem strListLt_irrefl (a : List String) : strListLt a a = false := by
  induction a with
  | nil => rfl
  | cons x rest ih => simp [strListLt, ih]

theorem strListLt_trans (a b c : List String) (h1 : strListLt a b = true)
    (h2 : strListLt b c = true) : strListLt a c = true := by
  induction a generalizing b c with
  | nil =>
    cases b with
    | nil => simp [strListLt] at h1
    | cons bh bt =>
      cases c with
      | nil => simp [strListLt] at h2
      | cons ch ct => simp [strListLt]
  | cons ah atl ih =>
    cases b with
    | nil => simp [strListLt] at h1
    | cons bh bt =>
      cases c with
      | nil => simp [strListLt] at h2
      | cons ch ct =>
        simp only [strListLt] at h1 h2 ⊢
        by_cases hab : ah = bh
        · rw [if_pos hab] at h1
          by_cases hbc : bh = ch
          · rw [if_pos hbc] at h2
            rw [if_pos (hab.trans hbc)]
            exact ih bt ct h1 h2
          · rw [if_neg hbc] at h2
            have hac : ¬ah = ch := by
              rw [hab]
              exact hbc
            rw [if_neg hac, hab]
            exact h2
        · rw [if_neg hab] at h1
          by_cases hbc : bh = ch
          · have hac : ¬ah = ch := by
              rw [← hbc]
              exact hab
            rw [if_neg hac, ← hbc]
            exact h1
          · rw [if_neg hbc] at h2
            have hlt := strLt_trans _ _ _ h1 h2
            have hac : ¬ah = ch := by
              intro hcon
              rw [hcon] at h1
              have := strLt_trans _ _ _ h2 h1
              rw [strLt_irrefl] at this
              exact Bool.noConfusion this
            rw [if_neg hac]
            exact hlt

theorem strListLt_connex (a b : List String) (h : a ≠ b) :
    strListLt a b = true ∨ strListLt b a = true := by
  induction a generalizing b with
  | nil =>
    cases b with
    | nil => exact absurd rfl h
    | cons bh bt => exact Or.inl (by simp [strListLt])
  | cons ah atl ih =>
    cases b with
    | nil => exact Or.inr (by simp [strListLt])
    | cons bh bt =>
      by_cases hab : ah = bh
      · have hta : atl ≠ bt := by
          intro hcon
          exact h (by rw [hab, hcon])
        rcases ih bt hta with hl | hl
        · refine Or.inl ?_
          simp only [strListLt]
          rw [if_pos hab]
          exact hl
        · refine Or.inr ?_
          simp only [strListLt]
          rw [if_pos hab.symm]
          exact hl
      · rcases strLt_connex ah bh hab with hl | hl
        · refine Or.inl ?_
          simp only [strListLt]
          rw [if_neg hab]
          exact hl
        · refine Or.inr ?_
          simp only [strListLt]
          rw [if_neg (fun hc => hab hc.symm)]
          exact hl

theorem optStrLt_trans (a b c : Option String) (h1 : optStrLt a b = true)
    (h2 : optStrLt b c = true) : optStrLt a c = true := by
  cases a <;> cases b <;> cases c <;> simp_all [optStrLt]
  exact strLt_trans _ _ _ h1 h2

theorem optStrLt_connex (a b : Option String) (h : a ≠ b) :
    optStrLt a b = true ∨ optStrLt b a = true := by
  cases a with
  | none =>
    cases b with
    | none => exact absurd rfl h
    | some s => exact Or.inl rfl
  | some s =>
    cases b with
    | none => exact Or.inr rfl
    | some t =>
      have hst : s ≠ t := by
        intro hcon
        exact h (by rw [hcon])
      exact strLt_connex s t hst

theorem pathLt_trans (p q r : SdfPath) (h1 : pathLt p q = true)
    (h2 : pathLt q r = true) : pathLt p r = true := by
  unfold pathLt at h1 h2 ⊢
  by_cases hpq : p.parts = q.parts
  · rw [if_pos hpq] at h1
    by_cases hqr : q.parts = r.parts
    · rw [if_pos hqr] at h2
      rw [if_pos (hpq.trans hqr)]
      exact optStrLt_trans _ _ _ h1 h2
    · rw [if_neg hqr] at h2
      have hpr : ¬p.parts = r.parts := by
        rw [hpq]
        exact hqr
      rw [if_neg hpr, hpq]
      exact h2
  · rw [if_neg hpq] at h1
    by_cases hqr : q.parts = r.parts
    · have hpr : ¬p.parts = r.parts := by
        rw [← hqr]
        exact hpq
      rw [if_neg hpr, ← hqr]
      exact h1
    · rw [if_neg hqr] at h2
      have hlt := strListLt_trans _ _ _ h1 h2
      have hpr : ¬p.parts = r.parts := by
        intro hcon
        rw [hcon] at h1
        have := strListLt_trans _ _ _ h2 h1
        rw [strListLt_irrefl] at this
        exact Bool.noConfusion this
      rw [if_neg hpr]
      exact hlt

theorem pathLt_connex (p q : SdfPath) (h : p ≠ q) :
    pathLt p q = true ∨ pathLt q p = true := by
  unfold pathLt
  by_cases hpq : p.parts = q.parts
  · have hprop : p.prop ≠ q.prop := by
      intro hcon
      rcases p with ⟨pp, pr⟩
      rcases q with ⟨qp, qr⟩
      exact h (by simp_all)
    rcases optStrLt_connex p.prop q.prop hprop with hl | hl
    · refine Or.inl ?_
      rw [if_pos hpq]
      exact hl
    · refine Or.inr ?_
      rw [if_pos hpq.symm]
      exact hl
  · rcases strListLt_connex p.parts q.parts hpq with hl | hl
    · refine Or.inl ?_
      rw [if_neg hpq]
      exact hl
    · refine Or.inr ?_
      rw [if_neg (fun hc => hpq hc.symm)]
      exact hl

/-! The path index is kept sorted by the comparator. -/

theorem pairwise_insUpd_pathLt {β : Type} (k : SdfPath) (upd : Option β → β)
    (l : List (SdfPath × β))
    (h : l.Pairwise (fun x y => pathLt x.1 y.1 = true)) :
    (insUpd pathLt k upd l).Pairwise (fun x y => pathLt x.1 y.1 = true) := by
  induction l with
  | nil => simp [insUpd]
  | cons hd tl ih =>
    rcases hd with ⟨a, b⟩
    rcases List.pairwise_cons.mp h with ⟨hhd, htl⟩
    by_cases hka : k = a
    · subst hka
      rw [insUpd_cons_self]
      exact List.pairwise_cons.mpr ⟨hhd, htl⟩
    · simp only [insUpd, if_neg hka]
      by_cases hlt : pathLt k a = true
      · rw [if_pos hlt]
        refine List.pairwise_cons.mpr ⟨?_, h⟩
        intro y hy
        rcases List.mem_cons.mp hy with hy | hy
        · rw [hy]
          exact hlt
        · exact pathLt_trans _ _ _ hlt (hhd y hy)
      · rw [if_neg hlt]
        refine List.pairwise_cons.mpr ⟨?_, ih htl⟩
        intro y hy
        rcases mem_insUpd _ _ _ _ _ hy with hy | hy
        · rw [hy]
          rcases pathLt_connex k a hka with hc | hc
          · exact absurd hc hlt
          · exact hc
        · exact hhd y hy

theorem pairwise_indexStep (rg : Nat) (en : List (Nat × RawVal))
    (idx : List (SdfPath × ParquetLocation))
    (h : idx.Pairwise (fun x y => pathLt x.1 y.1 = true)) :
    (en.foldl
      (fun idx2 iv =>
        match parseAbsPath (rawString iv.2) with
        | some q =>
          insUpd pathLt q (fun _ => (⟨rg, iv.1⟩ : ParquetLocation)) idx2
        | none => idx2)
      idx).Pairwise (fun x y => pathLt x.1 y.1 = true) := by
  induction en generalizing idx with
  | nil => exact h
  | cons iv rest ih =>
    simp only [List.foldl_cons]
    apply ih
    rcases hq : parseAbsPath (rawString iv.2) with _ | q
    · exact h
    · exact pairwise_insUpd_pathLt q _ idx h

theorem pairwise_buildIndex (bs : List (Nat × ColBlock))
    (idx0 idx : List (SdfPath × ParquetLocation))
    (h : buildIndex bs idx0 = .ok idx)
    (h0 : idx0.Pairwise (fun x y => pathLt x.1 y.1 = true)) :
    idx.Pairwise (fun x y => pathLt x.1 y.1 = true) := by
  induction bs generalizing idx0 with
  | nil =>
    injection h with h
    exact h ▸ h0
  | cons hd rest ih =>
    rcases hd with ⟨rg, blk⟩
    cases blk with
    | fault => exact absurd h (by simp [buildIndex])
    | ok vals =>
      simp only [buildIndex] at h
      exact ih _ h (pairwise_indexStep rg vals.enum idx0 h0)

/-- Counterexample to C3 as stated: scanning the rows `/B`, `/A` in that
order yields root children `[A, B]` (path-index key order), not the scan
order `[B, A]` that first-discovery over the scanned rows would give. -/
theorem c3_counterexample :
    openParquet scanOrderFile = .ok (openState scanOrderFile) ∧
    scannedPaths scanOrderFile = [⟨["B"], none⟩, ⟨["A"], none⟩] ∧
    lookupAssoc (openState scanOrderFile).childrenMap SdfPath.root =
      some ["A", "B"] ∧
    lookupAssoc (synthFromScan (scannedPaths scanOrderFile)).2 SdfPath.root =
      some ["B", "A"] ∧
    (openState scanOrderFile).childrenMap ≠
      (synthFromScan (scannedPaths scanOrderFile)).2 :=
  ⟨rfl, rfl, rfl, rfl, by decide⟩

/-- Claim C3 as amended: the Children Map lists children in first-discovery
order during hierarchy synthesis, which walks the indexed paths in the path
index's iteration order; that order is the index's sorted key order (the
`std::map` comparator), not the scan order of the source file. -/
theorem c3_children_first_discovery (f : PqFile) (st : LayerState)
    (h : openParquet f = .ok st) :
    st.childrenMap = (synthFromScan (st.pathIndex.map Prod.fst)).2 ∧
    st.pathIndex.Pairwise (fun x y => pathLt x.1 y.1 = true) := by
  obtain ⟨pci, props, idx, hsc, hbi, hst⟩ := openParquet_ok_elim f st h
  subst hst
  constructor
  · show (buildPathHierarchy idx).2 = _
    rw [buildPathHierarchy_eq_synth]
  · exact pairwise_buildIndex _ _ _ hbi (by simp)

/-- Witness for the amended C3 at the concrete out-of-order file. -/
theorem c3_witness :
    (openState scanOrderFile).childrenMap =
      (synthFromScan ((openState scanOrderFile).pathIndex.map Prod.fst)).2 ∧
    (openState scanOrderFile).pathIndex.Pairwise
      (fun x y => pathLt x.1 y.1 = true) :=
  c3_children_first_discovery scanOrderFile (openState scanOrderFile) rfl

end PqModel
